import Mathlib

/-!
Verification development for the rust_polynomial crate (src/src/poly.rs and
src/src/mono.rs).  The generic coefficient type `T` is instantiated at the
integer coefficient type used throughout the crate tests (`i32`), embedded as
the unbounded integers `ℤ`; machine-integer overflow is outside the scope of
the claims checked here.  Rust truncating integer division (`/` on `i32`,
which panics on a zero divisor) is embedded as `Int.tdiv`, with the panic
modelled as an `Except.error`.  The `f64` floating-point layer reached through
the `MonomialValue` conversions is not part of src; following the spec it is
embedded as exact rational arithmetic where every partial operation (square
root of a negative number, inexact narrowing back to `T`) yields `none`.
-/

namespace RustPolynomial

/-- A term: one coefficient/exponent pair (struct `Monomial` in src/src/mono.rs,
with `value : T` instantiated at integers and `exp : i32` embedded as `ℤ`). -/
structure Monomial where
  value : ℤ
  exp : ℤ
deriving DecidableEq, Repr

/-- The `Default` value of a term, `{0, 0}` (derived `Default` in mono.rs). -/
def Monomial.default : Monomial := ⟨0, 0⟩

/-- Modelled from the spec: the `Neg` impl for `Monomial` is not under src;
spec 4.1 says negate is "value negated, exponent unchanged". -/
def Monomial.neg (m : Monomial) : Monomial := ⟨-m.value, m.exp⟩

/-- Modelled from the spec: the `Mul` impl for `Monomial` is not under src;
spec 4.1 says multiply is "value = product of values, exponent = sum of
exponents, always defined". -/
def Monomial.mul (m rhs : Monomial) : Monomial := ⟨m.value * rhs.value, m.exp + rhs.exp⟩

/-- Modelled from the spec: the `Div` impl for `Monomial` is not under src;
spec 4.1 says divide is "value = quotient of values, exponent = difference of
exponents".  Value division is Rust truncating division at the integer
instantiation. -/
def Monomial.div (m rhs : Monomial) : Monomial := ⟨Int.tdiv m.value rhs.value, m.exp - rhs.exp⟩

/-- The coefficient function of a raw term list: the sum of the values of all
terms with the given exponent.  This is the semantic reading used to reason
about `collapse`; it is not itself part of the Rust code. -/
def rawFn (l : List Monomial) (e : ℤ) : ℤ := (l.map (fun m => if m.exp = e then m.value else 0)).sum

/-- Insertion step for sorting terms by exponent descending. -/
def insertDesc (m : Monomial) : List Monomial → List Monomial
  | [] => [m]
  | b :: t => if b.exp < m.exp then m :: b :: t else b :: insertDesc m t

/-- Sorting by exponent descending, as `sort_by(|m1, m2| m2.get_exp().cmp(&m1.get_exp()))`
does in `Polynomial::collapse`.  On lists whose exponents are pairwise distinct
(the only inputs collapse sorts) every comparison sort produces the same output,
so insertion sort is a faithful embedding. -/
def sortDesc : List Monomial → List Monomial
  | [] => []
  | m :: t => insertDesc m (sortDesc t)

/-- `Polynomial::collapse` (src/src/poly.rs): group the raw terms into
equal-exponent buckets, sum each bucket (the `Monomial` `Sum` impl adds the
values and keeps the shared exponent), drop zero-coefficient results, sort by
exponent descending.  The `HashMap` bucket order is irrelevant because the
final sort sees pairwise-distinct exponents; the buckets are enumerated here
by the first-occurrence order of the exponents. -/
def collapse (l : List Monomial) : List Monomial :=
  let exps := (l.map Monomial.exp).dedup
  let merged := exps.map (fun e => Monomial.mk (rawFn l e) e)
  sortDesc (merged.filter (fun m => m.value != 0))

/-- A polynomial: an ordered list of terms (struct `Polynomial` in src/src/poly.rs). -/
structure Polynomial where
  mono_vec : List Monomial
deriving DecidableEq, Repr

/-- `Polynomial::new`: construct and collapse. -/
def Polynomial.new (l : List Monomial) : Polynomial := ⟨collapse l⟩

/-- The derived `Default` impl: `Polynomial::new(vec![Monomial::default()])`. -/
def Polynomial.defaultP : Polynomial := Polynomial.new [Monomial.default]

/-- `Polynomial::max_exp`: the first term, or the default term `{0, 0}` when
the term list is empty. -/
def Polynomial.max_exp (p : Polynomial) : Monomial :=
  match p.mono_vec with
  | [] => Monomial.default
  | m :: _ => m

/-- `Polynomial::len`. -/
def Polynomial.len (p : Polynomial) : ℕ := p.mono_vec.length

/-- `Polynomial::find_by_exp`: first term with the given exponent, defaulting
to `Monomial::default()`. -/
def Polynomial.find_by_exp (p : Polynomial) (e : ℤ) : Monomial :=
  ((p.mono_vec.find? (fun m => m.exp = e)).getD Monomial.default)

/-- The `EquationType` enum of src/src/poly.rs. -/
inductive EquationType where
  | Linear
  | Quadratic
  | Biquadratic
  | BigExp
  | BigExp2Terms
  | Invalid
deriving DecidableEq, Repr

/-- `Polynomial::equation_type`: the match arms in source order; note that the
two-term arm is tested before the exponent-2 arm. -/
def Polynomial.equation_type (p : Polynomial) : EquationType :=
  let e := (p.max_exp).exp
  if e = 0 then .Invalid
  else if e = 1 then .Linear
  else if e > 1 ∧ p.len = 2 then .BigExp2Terms
  else if e = 2 then .Quadratic
  else if e = 4 ∧ (p.find_by_exp 3).value = 0 ∧ (p.find_by_exp 1).value = 0 then .Biquadratic
  else .BigExp

/-- `Polynomial::div_mono`: divide every term, then collapse. -/
def Polynomial.div_mono (p : Polynomial) (rhs : Monomial) : Polynomial :=
  Polynomial.new (p.mono_vec.map (fun m => m.div rhs))

/-- `Polynomial::mul_mono`: multiply every term, then collapse. -/
def Polynomial.mul_mono (p : Polynomial) (rhs : Monomial) : Polynomial :=
  Polynomial.new (p.mono_vec.map (fun m => m.mul rhs))

/-- The `Neg` impl for `Polynomial`: negate every term, then collapse. -/
def Polynomial.negP (p : Polynomial) : Polynomial :=
  Polynomial.new (p.mono_vec.map Monomial.neg)

/-- The `Add` impl for `Polynomial`: concatenate the term lists, then collapse. -/
def Polynomial.add (p rhs : Polynomial) : Polynomial :=
  Polynomial.new (p.mono_vec ++ rhs.mono_vec)

/-- The raw Cartesian product of two term lists, in the nesting order of the
`Mul` impl (outer loop over the left operand). -/
def prodRaw (l r : List Monomial) : List Monomial :=
  l.flatMap (fun a => r.map (fun b => a.mul b))

/-- The `Mul` impl for `Polynomial`: Cartesian product of the term lists,
then collapse. -/
def Polynomial.mulP (p rhs : Polynomial) : Polynomial :=
  Polynomial.new (prodRaw p.mono_vec rhs.mono_vec)

/-- The term the division loop appends to the quotient: the quotient of the
two leading terms. -/
def step_result (dividend divider : Polynomial) : Monomial :=
  (dividend.max_exp).div (divider.max_exp)

/-- The next dividend of the division loop:
`dividend + (divider.mul_mono(result)).neg()`. -/
def step_dividend (dividend divider : Polynomial) : Polynomial :=
  dividend.add ((divider.mul_mono (step_result dividend divider)).negP)

/-- The `while` loop of the `Div` impl for `Polynomial`, made total with a
fuel parameter: `none` means the loop has not exited within `fuel` iterations.
The quotient accumulator receives `push_raw` results and is collapsed once on
exit, exactly as in the source. -/
def div_loop : ℕ → Polynomial → Polynomial → List Monomial → Option (Polynomial × Polynomial)
  | 0, _, _, _ => none
  | fuel + 1, dividend, divider, quotient =>
    if (dividend.max_exp).exp ≥ (divider.max_exp).exp then
      div_loop fuel (step_dividend dividend divider) divider (quotient ++ [step_result dividend divider])
    else some (⟨collapse quotient⟩, dividend)

/-- The `Div` impl for `Polynomial` (quotient, remainder), fuelled. -/
def divP (fuel : ℕ) (lhs rhs : Polynomial) : Option (Polynomial × Polynomial) :=
  div_loop fuel lhs rhs []

/-- The division operator returns (for the given operands): some number of
loop iterations suffices for the `while` loop to exit. -/
def div_terminates (lhs rhs : Polynomial) : Prop :=
  ∃ fuel q r, div_loop fuel lhs rhs [] = some (q, r)

/-- Canonical shape maintained by `collapse`: exponents strictly descending
and no zero coefficients. -/
def Canon (l : List Monomial) : Prop :=
  l.Pairwise (fun a b => b.exp < a.exp) ∧ ∀ m ∈ l, m.value ≠ 0

/-- The `Display` impl for `Monomial` (src/src/mono.rs): suppress a
coefficient of magnitude 1 except at exponent 0, render exponent 0 as empty
and exponent 1 as a bare variable. -/
def Monomial.display (m : Monomial) : String :=
  let base :=
    if m.value = -1 ∧ m.exp = 0 then "-1"
    else if m.value = -1 then "-"
    else if m.value = 1 ∧ m.exp = 0 then "1"
    else if m.value = 1 then ""
    else toString m.value
  let e :=
    if m.exp = 0 then ""
    else if m.exp = 1 then "x"
    else "x^" ++ toString m.exp
  base ++ e

/-- The `Display` impl for `Polynomial` (src/src/poly.rs): an empty term list
prints as "0"; otherwise each term prints with its sign separator and its
absolute-value rendering. -/
def Polynomial.display (p : Polynomial) : String :=
  if p.mono_vec = [] then "0"
  else String.join ((p.mono_vec.enum.map (fun im =>
    (if im.2.value < 0 then (if im.1 = 0 then "-" else " - ")
     else (if im.1 = 0 then "" else " + "))
      ++ (Monomial.mk |im.2.value| im.2.exp).display)))

/-- Modelled from the spec: `MonomialValue` (the bound providing `to_f64`) is
not under src.  At the integer instantiation `to_f64` always succeeds and is
exact, embedded as the cast into the exact rationals standing in for `f64`. -/
def toF64 (z : ℤ) : Option ℚ := some (z : ℚ)

/-- Modelled from the spec: `MonomialValue` (the bound providing the fallible
narrowing `T::from` on an `f64`) is not under src; spec 9 describes it as a
conversion that fails unless the result is exactly representable in `T`. -/
def fromF64 (q : ℚ) : Option ℤ := if q.den = 1 then some q.num else none

/-- Smallest natural `k` with `k ^ n = m`, when one exists. -/
def natRootExact (m n : ℕ) : Option ℕ := (List.range (m + 2)).find? (fun k => k ^ n = m)

/-- Modelled from the spec: `f64::sqrt` under the exact-rational embedding of
the floating layer.  A negative argument is NaN in Rust and every later
fallible narrowing of NaN fails, so it is `none` here; an argument with no
exact rational square root can never narrow back exactly either, so it is
also `none`. -/
def fsqrt (q : ℚ) : Option ℚ :=
  if q < 0 then none
  else
    match natRootExact q.num.toNat 2, natRootExact q.den 2 with
    | some n, some d => some ((n : ℚ) / (d : ℚ))
    | _, _ => none

/-- Modelled from the spec: `f64::powf` applied at `1/n` (the n-th root used
by the two-term high-degree strategy), under the exact-rational embedding:
`none` unless the argument has an exact rational n-th root. -/
def ratRootN (q : ℚ) (n : ℤ) : Option ℚ :=
  if n ≤ 0 then none
  else match natRootExact q.num.toNat n.toNat, natRootExact q.den n.toNat with
    | some a, some b => some ((a : ℚ) / (b : ℚ))
    | _, _ => none

/-- Ascending insertion step for the `sort_by(partial_cmp)` calls on result
vectors (total order on integers, so `unwrap` never fires). -/
def insertAsc (x : ℤ) : List ℤ → List ℤ
  | [] => [x]
  | b :: t => if x ≤ b then x :: b :: t else b :: insertAsc x t

/-- Ascending sort of a result vector. -/
def sortAsc : List ℤ → List ℤ
  | [] => []
  | x :: t => insertAsc x (sortAsc t)

/-- `Polynomial::linear_root`.  The `panic!` on a term count outside 1..=2 and
the panic of Rust integer division by zero are both embedded as `Except.error`. -/
def linear_root (poly : Polynomial) : Except String (Option (List ℤ)) :=
  let len := poly.mono_vec.length
  if len > 2 ∨ len < 1 then .error (poly.display ++ " is not a linear equation")
  else if len = 1 then .ok (some [0])
  else match poly.mono_vec with
    | m0 :: m1 :: _ =>
      if m0.value = 0 then .error "attempt to divide by zero"
      else .ok (some [Int.tdiv (-m1.value) m0.value])
    | _ => .error "unreachable"

/-- `Polynomial::quadratic_root`.  The three leading coefficients are pushed
through `to_f64().unwrap()` (total at the integer instantiation); every `?`
on a failed conversion is an early `Some`-free return, embedded as `.ok none`. -/
def quadratic_root (poly : Polynomial) : Except String (Option (List ℤ)) :=
  match toF64 (poly.max_exp).value, toF64 (poly.find_by_exp 1).value, toF64 (poly.find_by_exp 0).value with
  | some a, some b, some c =>
    if b = 0 ∧ c = 0 then .ok (some [0])
    else if b = 0 then
      match poly.mono_vec with
      | [] => .error "index out of bounds"
      | m :: rest =>
        match linear_root ⟨⟨m.value, 1⟩ :: rest⟩ with
        | .error e => .error e
        | .ok none => .ok none
        | .ok (some lr) =>
          match lr with
          | [] => .error "index out of bounds"
          | r0 :: _ =>
            match toF64 r0 with
            | none => .ok none
            | some lrq =>
              match (fsqrt lrq).bind fromF64 with
              | none => .ok none
              | some s => if s = 0 then .ok (some [s]) else .ok (some [-s, s])
    else
      let sq := fsqrt (b * b - 4 * a * c)
      match sq.bind (fun s => fromF64 ((-b + s) / (2 * a))) with
      | none => .ok none
      | some r1 =>
        match sq.bind (fun s => fromF64 ((-b - s) / (2 * a))) with
        | none => .ok none
        | some r2 =>
          if r1 = r2 then .ok (some [r1])
          else .ok (some (sortAsc [r1, r2]))
  | _, _, _ => .error "to_f64 failed"

/-- `Polynomial::biquadratic_root`: remap exponents 4, 2 to 2, 1, solve the
quadratic, then take square roots.  Only the two-solution cases go through
`sqrt_converter`, which takes the absolute value before the square root. -/
def biquadratic_root (poly : Polynomial) : Except String (Option (List ℤ)) :=
  let a := poly.find_by_exp 4
  let b := poly.find_by_exp 2
  let c := poly.find_by_exp 0
  let quadratic := Polynomial.new [⟨a.value, 2⟩, ⟨b.value, 1⟩, c]
  match quadratic_root quadratic with
  | .error e => .error e
  | .ok none => .ok none
  | .ok (some qr) =>
    if qr.length = 1 then
      match qr with
      | r :: _ =>
        match (toF64 r).bind (fun q => (fsqrt q).bind fromF64) with
        | none => .ok none
        | some s => .ok (some [-s, s])
      | [] => .error "index out of bounds"
    else
      match qr with
      | [r1, r2] =>
        if |r1| = |r2| then
          match (toF64 r1).bind (fun q => (fsqrt |q|).bind fromF64) with
          | none => .ok none
          | some r => .ok (some (sortAsc [-r, r]))
        else
          match (toF64 r1).bind (fun q => (fsqrt |q|).bind fromF64) with
          | none => .ok none
          | some r11 =>
            match (toF64 r2).bind (fun q => (fsqrt |q|).bind fromF64) with
            | none => .ok none
            | some r21 => .ok (some (sortAsc [-r11, -r21, r11, r21]))
      | _ => .ok none

/-- `Polynomial::big_exp2_root`: solve `a x^n + b = 0` through
`(-b/a).powf(1/n)` with sign handling by parity of `n`. -/
def big_exp2_root (poly : Polynomial) : Except String (Option (List ℤ)) :=
  if poly.mono_vec.length ≠ 2 then .ok none
  else
    let a := poly.max_exp
    let b := poly.find_by_exp 0
    if a.value = 0 then .error "attempt to divide by zero"
    else
      match toF64 (Int.tdiv (-b.value) a.value) with
      | none => .ok none
      | some value =>
        if a.exp % 2 = 0 ∧ value < 0 then .ok none
        else
          match (ratRootN |value| a.exp).bind fromF64 with
          | none => .ok none
          | some rv =>
            if a.exp % 2 ≠ 0 then
              .ok (some [if value < 0 then -rv else rv])
            else .ok (some (sortAsc [-rv, rv]))

/-- The list `[n, n-1, ..., 0]` of integers. -/
def descList : ℕ → List ℤ
  | 0 => [0]
  | n + 1 => ((n + 1 : ℕ) : ℤ) :: descList n

/-- The iteration order `(0..=max_exp).rev()` of the synthetic-division sweep:
empty when `max_exp` is negative. -/
def descExps (e : ℤ) : List ℤ := if e < 0 then [] else descList e.toNat

/-- `Polynomial::find_divs`: the positive divisors of `value` in ascending
order by trial division from 1 to `value`, followed by their negations in the
same order. -/
def find_divs (value : ℕ) : List ℤ :=
  let divs := List.map (fun (d : ℕ) => (d : ℤ))
    (List.filter (fun (d : ℕ) => value % d = 0) (List.range' 1 value))
  divs ++ List.map (fun (d : ℤ) => -d) divs

/-- The inner synthetic-division sweep of `Polynomial::find_root` for one
candidate `div`: walk the exponents from `max_exp` down to 0 carrying the
running value, push each running sum at exponent `exp - 1` onto the raw
quotient, and stop with the collapsed quotient when the final sum (the
remainder, reached when the index equals `max_exp`) is zero. -/
def synLoop (poly : Polynomial) (div : ℤ) : List ℤ → ℤ → ℤ → List Monomial → Option (List Monomial)
  | [], _, _, _ => none
  | e :: rest, i, current, acc =>
    let sum := (poly.find_by_exp e).value + current
    let acc2 := acc ++ [Monomial.mk sum (e - 1)]
    if i = (poly.max_exp).exp ∧ sum = 0 then some (collapse acc2)
    else synLoop poly div rest (i + 1) (sum * div) acc2

/-- The candidate sweep of `Polynomial::find_root`: first candidate whose
sweep reports a zero remainder wins; a found quotient equal to the default
(zero) polynomial is dropped. -/
def find_root_loop (poly : Polynomial) : List ℤ → Option ℤ × Option Polynomial
  | [] => (none, none)
  | d :: ds =>
    match synLoop poly d (descExps (poly.max_exp).exp) 0 0 [] with
    | some tl => if tl = [] then (some d, none) else (some d, some ⟨tl⟩)
    | none => find_root_loop poly ds

/-- The `abs().to_u64()` of the constant term (total at the integer
instantiation, where the absolute value is always a natural number). -/
def rootBase (poly : Polynomial) : ℕ := (poly.find_by_exp 0).value.natAbs

/-- `Polynomial::find_root`: rational-root search by synthetic division over
the divisor candidates of the constant term. -/
def find_root (poly : Polynomial) : Option ℤ × Option Polynomial :=
  find_root_loop poly (find_divs (rootBase poly))

/-- `Polynomial::big_exp_root` with the recursive `roots()` call abstracted:
push the found root, extend with the recursive result on the deflated
quotient, return `none` when nothing was found, sort ascending. -/
def big_exp_root_core (rec : Polynomial → Except String (Option (List ℤ)))
    (poly : Polynomial) : Except String (Option (List ℤ)) :=
  match find_root poly with
  | (none, _) => .ok none
  | (some r, none) => .ok (some (sortAsc [r]))
  | (some r, some rest) =>
    match rec rest with
    | .error e => .error e
    | .ok none => .ok (some (sortAsc [r]))
    | .ok (some l) => .ok (some (sortAsc (r :: l)))

/-- `Polynomial::roots`: classify, dispatch.  The recursion of the general
high-degree strategy (one call per extracted root, on a strictly smaller
degree) is fuelled; `roots` below supplies sufficient fuel. -/
def rootsF : ℕ → Polynomial → Except String (Option (List ℤ))
  | 0, _ => .error "out of fuel"
  | fuel + 1, poly =>
    match poly.equation_type with
    | .Linear => linear_root poly
    | .Quadratic => quadratic_root poly
    | .Biquadratic => biquadratic_root poly
    | .BigExp2Terms => big_exp2_root poly
    | .BigExp => big_exp_root_core (rootsF fuel) poly
    | .Invalid => .ok none

/-- Fuel budget: one unit per possible degree plus one. -/
def rootsFuel (poly : Polynomial) : ℕ := (poly.max_exp).exp.toNat + 1

/-- `Polynomial::roots`. -/
def roots (poly : Polynomial) : Except String (Option (List ℤ)) :=
  rootsF (rootsFuel poly) poly

/-- Synthetic division as the spec words it (glossary and 4.6): sweep the
exponents from highest to lowest, accumulating `running * candidate +
coefficient`; the pushed terms (each one exponent lower) form the raw
quotient and the final running value is the remainder. -/
def synDivide (poly : Polynomial) (d : ℤ) : List Monomial × ℤ :=
  (descExps (poly.max_exp).exp).foldl
    (fun st e =>
      let s := st.2 * d + (poly.find_by_exp e).value
      (st.1 ++ [Monomial.mk s (e - 1)], s))
    ([], 0)

/-- The synthetic-division remainder of `poly` at candidate `d`. -/
def hornerRem (poly : Polynomial) (d : ℤ) : ℤ := (synDivide poly d).2

/-- The raw synthetic-division quotient of `poly` at candidate `d`. -/
def synQuot (poly : Polynomial) (d : ℤ) : List Monomial := (synDivide poly d).1

/-- One step of the Horner fold of `synDivide`, named for reuse in proofs. -/
def synStep (poly : Polynomial) (d : ℤ) (st : List Monomial × ℤ) (e : ℤ) :
    List Monomial × ℤ :=
  let s := st.2 * d + (poly.find_by_exp e).value
  (st.1 ++ [Monomial.mk s (e - 1)], s)

instance {ε α : Type} [DecidableEq ε] [DecidableEq α] : DecidableEq (Except ε α) := fun a b =>
  match a, b with
  | .error x, .error y =>
    if h : x = y then isTrue (by rw [h]) else isFalse (fun hh => h (by cases hh; rfl))
  | .ok x, .ok y =>
    if h : x = y then isTrue (by rw [h]) else isFalse (fun hh => h (by cases hh; rfl))
  | .error _, .ok _ => isFalse (fun hh => by cases hh)
  | .ok _, .error _ => isFalse (fun hh => by cases hh)

instance (l : List Monomial) : Decidable (Canon l) :=
  inferInstanceAs (Decidable (_ ∧ _))

/-- Splitting a character list at every occurrence of a separator character,
with the semantics of Rust `str::split` (and of `String.splitOn`) for a
single-character pattern: the number of parts is one more than the number of
separator occurrences. -/
def splitOnChar (c : Char) : List Char → List (List Char)
  | [] => [[]]
  | a :: rest =>
    let r := splitOnChar c rest
    if a = c then [] :: r
    else
      match r with
      | [] => [[a]]
      | h :: t => (a :: h) :: t

/-- Rust `str::trim`: drop leading and trailing whitespace. -/
def trimStr (s : String) : String :=
  String.mk (((s.toList.dropWhile Char.isWhitespace).reverse.dropWhile Char.isWhitespace).reverse)

/-- Rust `str::replace(c, "")` for a single character: drop every occurrence. -/
def removeCh (c : Char) (s : String) : String :=
  String.mk (s.toList.filter (fun a => a ≠ c))

/-- The value of a nonempty all-digit character list, as in Rust integer
parsing (overflow is out of scope at the unbounded embedding). -/
def digitsVal (cs : List Char) : Option ℕ :=
  if cs = [] then none
  else if cs.all Char.isDigit then
    some (cs.foldl (fun a c => a * 10 + (c.toNat - 48)) 0)
  else none

/-- Rust `str::parse` for a signed integer type: an optional single sign
followed by at least one digit. -/
def parseIntStr (s : String) : Option ℤ :=
  match s.toList with
  | [] => none
  | '+' :: rest => (digitsVal rest).map (fun n => (n : ℤ))
  | '-' :: rest => (digitsVal rest).map (fun n => -(n : ℤ))
  | cs => (digitsVal cs).map (fun n => (n : ℤ))

/-- The `TryFrom<&str>` impl for `Monomial` (src/src/mono.rs): clean the
input (trim, lowercase, drop spaces and carets), split on the variable
letter, parse the coefficient part (empty means 1, a bare minus means -1) and
the exponent part (absent split means exponent 0, empty exponent part means
exponent 1, three or more split parts is an error). -/
def Monomial.try_from (value : String) : Except String Monomial :=
  let clean := removeCh '^' (removeCh ' ' (String.mk ((trimStr value).toList.map Char.toLower)))
  match (splitOnChar 'x' clean.toList).map String.mk with
  | [] => .ok Monomial.default
  | s0 :: restSplit =>
    let s1 := if s0 = "-" then "-1" else s0
    match
      (match parseIntStr s1 with
       | some v => Except.ok v
       | none => if s1 = "" then Except.ok 1 else Except.error "Not valid base") with
    | .error e => .error e
    | .ok base =>
      match restSplit with
      | [] => .ok ⟨base, 0⟩
      | [s2] =>
        match parseIntStr s2 with
        | some v => .ok ⟨base, v⟩
        | none => if s2 = "" then .ok ⟨base, 1⟩ else .error "Not valid exponent"
      | _ => .error "To much symbols"

/-- The character scan of the `TryFrom<&str>` impl for `Polynomial`: buffer
characters, flush the buffer as one term at every `+`/`-` that is not the
first character (the sign starts the next buffer), and flush once more at the
last character.  A trailing unflushed buffer is dropped, as in the source.
Byte indices coincide with character indices on the ASCII grammar. -/
def polyLoop (len : ℕ) : ℕ → List Char → List Char → Except String (List Monomial)
  | _, _, [] => .ok []
  | i, buf, c :: rest =>
    if i = 0 then polyLoop len (i + 1) (buf ++ [c]) rest
    else if c = '-' ∨ c = '+' then
      match Monomial.try_from (String.mk buf) with
      | .error e => .error e
      | .ok m =>
        match polyLoop len (i + 1) [c] rest with
        | .error e => .error e
        | .ok ms => .ok (m :: ms)
    else if i = len - 1 then
      match Monomial.try_from (String.mk (buf ++ [c])) with
      | .error e => .error e
      | .ok m =>
        match polyLoop len (i + 1) [] rest with
        | .error e => .error e
        | .ok ms => .ok (m :: ms)
    else polyLoop len (i + 1) (buf ++ [c]) rest

/-- The `TryFrom<&str>` impl for `Polynomial` (src/src/poly.rs): trim and
drop spaces, parse a single-character input directly as one term, otherwise
run the character scan; collapse the resulting raw term list. -/
def Polynomial.try_from (value : String) : Except String Polynomial :=
  let clean := removeCh ' ' (trimStr value)
  if clean.length = 1 then
    match Monomial.try_from clean with
    | .error e => .error e
    | .ok m => .ok (Polynomial.new [m])
  else
    match polyLoop clean.length 0 [] clean.toList with
    | .error e => .error e
    | .ok ms => .ok (Polynomial.new ms)

/-- The `TryFrom<Vec<T>>` impl for `Polynomial`: index `i` of a vector of
length `n` carries exponent `n - 1 - i`, zero entries are skipped, and an
empty term list falls back to the default polynomial. -/
def Polynomial.from_vec (value : List ℤ) : Except String Polynomial :=
  let mono_vec := value.enum.filterMap (fun iv =>
    if iv.2 = 0 then none
    else some (Monomial.mk iv.2 ((value.length - 1 - iv.1 : ℕ) : ℤ)))
  if mono_vec = [] then .ok Polynomial.defaultP
  else .ok (Polynomial.new mono_vec)

theorem rawFn_nil (e : ℤ) : rawFn [] e = 0 := rfl

theorem rawFn_cons (m : Monomial) (l : List Monomial) (e : ℤ) :
    rawFn (m :: l) e = (if m.exp = e then m.value else 0) + rawFn l e := by
  simp [rawFn]

theorem rawFn_append (a b : List Monomial) (e : ℤ) :
    rawFn (a ++ b) e = rawFn a e + rawFn b e := by
  simp [rawFn]

theorem rawFn_perm {a b : List Monomial} (h : a.Perm b) (e : ℤ) :
    rawFn a e = rawFn b e :=
  List.Perm.sum_eq (h.map _)

theorem rawFn_eq_zero (l : List Monomial) (e : ℤ) (h : ∀ m ∈ l, m.exp ≠ e) :
    rawFn l e = 0 := by
  induction l with
  | nil => rfl
  | cons m t ih =>
    rw [rawFn_cons, if_neg (h m (by simp)), ih (fun x hx => h x (by simp [hx])), add_zero]

theorem insertDesc_perm (m : Monomial) (l : List Monomial) :
    (insertDesc m l).Perm (m :: l) := by
  induction l with
  | nil => simp [insertDesc]
  | cons b t ih =>
    by_cases h : b.exp < m.exp
    · simp [insertDesc, h]
    · simp only [insertDesc, if_neg h]
      exact (ih.cons b).trans (List.Perm.swap m b t)

theorem sortDesc_perm (l : List Monomial) : (sortDesc l).Perm l := by
  induction l with
  | nil => exact List.Perm.refl []
  | cons m t ih => exact (insertDesc_perm m (sortDesc t)).trans (ih.cons m)

theorem sorted_insertDesc {m : Monomial} {l : List Monomial}
    (h : l.Pairwise (fun a b => b.exp ≤ a.exp)) :
    (insertDesc m l).Pairwise (fun a b => b.exp ≤ a.exp) := by
  induction l with
  | nil => simp [insertDesc]
  | cons b t ih =>
    rcases List.pairwise_cons.1 h with ⟨hb, ht⟩
    by_cases hexp : b.exp < m.exp
    · simp only [insertDesc, if_pos hexp]
      refine List.pairwise_cons.2 ⟨?_, h⟩
      intro x hx
      rcases List.mem_cons.1 hx with rfl | hx
      · exact le_of_lt hexp
      · exact le_trans (hb x hx) (le_of_lt hexp)
    · simp only [insertDesc, if_neg hexp]
      refine List.pairwise_cons.2 ⟨?_, ih ht⟩
      intro x hx
      rcases List.mem_cons.1 ((insertDesc_perm m t).mem_iff.1 hx) with rfl | hx
      · exact le_of_not_lt hexp
      · exact hb x hx

theorem sorted_sortDesc (l : List Monomial) :
    (sortDesc l).Pairwise (fun a b => b.exp ≤ a.exp) := by
  induction l with
  | nil => simp [sortDesc]
  | cons m t ih => exact sorted_insertDesc ih

theorem pairwise_lt_of_le_nodup {l : List Monomial}
    (hs : l.Pairwise (fun a b => b.exp ≤ a.exp))
    (hn : (l.map Monomial.exp).Nodup) :
    l.Pairwise (fun a b => b.exp < a.exp) := by
  have hne : l.Pairwise (fun a b => a.exp ≠ b.exp) := List.pairwise_map.1 hn
  exact (hs.and hne).imp (fun h => lt_of_le_of_ne h.1 (Ne.symm h.2))

theorem rawFn_map_mk {es : List ℤ} (hn : es.Nodup) (f : ℤ → ℤ) (x : ℤ) :
    rawFn (es.map (fun e => Monomial.mk (f e) e)) x = if x ∈ es then f x else 0 := by
  induction es with
  | nil => simp [rawFn]
  | cons e t ih =>
    rcases List.nodup_cons.1 hn with ⟨he, ht⟩
    rw [List.map_cons, rawFn_cons]
    by_cases hx : e = x
    · subst hx
      rw [if_pos rfl, ih ht, if_neg he, if_pos (by simp), add_zero]
    · rw [if_neg hx, ih ht, zero_add]
      by_cases hxt : x ∈ t
      · rw [if_pos hxt, if_pos (by simp [hxt])]
      · rw [if_neg hxt, if_neg (fun hmem => by
          rcases List.mem_cons.1 hmem with rfl | hmem2
          · exact hx rfl
          · exact hxt hmem2)]

theorem rawFn_filter_nz (l : List Monomial) (e : ℤ) :
    rawFn (l.filter (fun m => m.value != 0)) e = rawFn l e := by
  induction l with
  | nil => rfl
  | cons m t ih =>
    by_cases h : m.value = 0
    · rw [List.filter_cons, rawFn_cons]
      simp [h, ih]
    · rw [List.filter_cons]
      simp only [h, bne_iff_ne, ne_eq, not_false_eq_true, if_pos]
      rw [rawFn_cons, rawFn_cons, ih]

theorem rawFn_collapse (l : List Monomial) (e : ℤ) :
    rawFn (collapse l) e = rawFn l e := by
  unfold collapse
  rw [rawFn_perm (sortDesc_perm _), rawFn_filter_nz,
    rawFn_map_mk (List.nodup_dedup _)]
  by_cases h : e ∈ (l.map Monomial.exp).dedup
  · rw [if_pos h]
  · rw [if_neg h]
    exact (rawFn_eq_zero l e (fun m hm hme =>
      h (List.mem_dedup.2 (List.mem_map.2 ⟨m, hm, hme⟩)))).symm

theorem Canon_collapse (l : List Monomial) : Canon (collapse l) := by
  constructor
  · apply pairwise_lt_of_le_nodup (sorted_sortDesc _)
    have hperm : ((sortDesc ((((l.map Monomial.exp).dedup).map
        (fun e => Monomial.mk (rawFn l e) e)).filter (fun m => m.value != 0))).map
          Monomial.exp).Perm
        (((((l.map Monomial.exp).dedup).map
          (fun e => Monomial.mk (rawFn l e) e)).filter (fun m => m.value != 0)).map
            Monomial.exp) := (sortDesc_perm _).map _
    apply hperm.nodup_iff.2
    apply List.Nodup.sublist ((List.filter_sublist _).map _)
    have : ((((l.map Monomial.exp).dedup).map
        (fun e => Monomial.mk (rawFn l e) e)).map Monomial.exp)
        = (l.map Monomial.exp).dedup := by
      rw [List.map_map]
      exact List.map_id'' (fun _ => rfl) _
    rw [this]
    exact List.nodup_dedup _
  · intro m hm
    have hmem := (sortDesc_perm _).mem_iff.1 hm
    have := List.of_mem_filter hmem
    simpa using this

theorem rawFn_head (a : Monomial) (t : List Monomial)
    (h : ∀ m ∈ t, m.exp < a.exp) : rawFn (a :: t) a.exp = a.value := by
  rw [rawFn_cons, if_pos rfl, rawFn_eq_zero t a.exp (fun m hm => ne_of_lt (h m hm)), add_zero]

theorem canon_ext : ∀ (l1 l2 : List Monomial), Canon l1 → Canon l2 →
    (∀ e, rawFn l1 e = rawFn l2 e) → l1 = l2
  | [], [], _, _, _ => rfl
  | [], b :: t2, _, h2, he => by
    exfalso
    rcases h2 with ⟨hp, hv⟩
    have hb : rawFn (b :: t2) b.exp = b.value :=
      rawFn_head b t2 (List.pairwise_cons.1 hp).1
    have h0 := he b.exp
    rw [rawFn_nil] at h0
    exact hv b (by simp) (by rw [← hb, ← h0])
  | a :: t1, [], h1, _, he => by
    exfalso
    rcases h1 with ⟨hp, hv⟩
    have ha : rawFn (a :: t1) a.exp = a.value :=
      rawFn_head a t1 (List.pairwise_cons.1 hp).1
    have h0 := he a.exp
    rw [rawFn_nil] at h0
    exact hv a (by simp) (by rw [← ha, h0])
  | a :: t1, b :: t2, h1, h2, he => by
    rcases h1 with ⟨hp1, hv1⟩
    rcases h2 with ⟨hp2, hv2⟩
    have ht1 : ∀ m ∈ t1, m.exp < a.exp := (List.pairwise_cons.1 hp1).1
    have ht2 : ∀ m ∈ t2, m.exp < b.exp := (List.pairwise_cons.1 hp2).1
    have hab : a.exp = b.exp := by
      by_contra hne
      rcases lt_or_gt_of_ne hne with hlt | hgt
      · have h0 : rawFn (a :: t1) b.exp = 0 := rawFn_eq_zero _ _ (by
          intro m hm
          rcases List.mem_cons.1 hm with rfl | hm
          · exact ne_of_lt hlt
          · exact ne_of_lt (lt_trans (ht1 m hm) hlt))
        have hbv : rawFn (b :: t2) b.exp = b.value := rawFn_head b t2 ht2
        exact hv2 b (by simp) (by rw [← hbv, ← he b.exp, h0])
      · have h0 : rawFn (b :: t2) a.exp = 0 := rawFn_eq_zero _ _ (by
          intro m hm
          rcases List.mem_cons.1 hm with rfl | hm
          · exact ne_of_lt hgt
          · exact ne_of_lt (lt_trans (ht2 m hm) hgt))
        have hav : rawFn (a :: t1) a.exp = a.value := rawFn_head a t1 ht1
        exact hv1 a (by simp) (by rw [← hav, he a.exp, h0])
    have hval : a.value = b.value := by
      have e1 := rawFn_head a t1 ht1
      have e2 := rawFn_head b t2 ht2
      rw [← e1, he a.exp, hab, e2]
    have htt : ∀ e, rawFn t1 e = rawFn t2 e := by
      intro e
      by_cases hea : e = a.exp
      · subst hea
        rw [rawFn_eq_zero t1 _ (fun m hm => ne_of_lt (ht1 m hm)),
          rawFn_eq_zero t2 _ (fun m hm => by rw [hab]; exact ne_of_lt (ht2 m hm))]
      · have hthis := he e
        rw [rawFn_cons, rawFn_cons, if_neg (fun h => hea h.symm),
          if_neg (fun h => hea (by rw [← h, hab])), zero_add, zero_add] at hthis
        exact hthis
    have htail : t1 = t2 :=
      canon_ext t1 t2 ⟨(List.pairwise_cons.1 hp1).2, fun m hm => hv1 m (by simp [hm])⟩
        ⟨(List.pairwise_cons.1 hp2).2, fun m hm => hv2 m (by simp [hm])⟩ htt
    have hhead : a = b := by
      cases a; cases b
      simp_all
    rw [hhead, htail]

theorem collapse_canonical {l : List Monomial} (h : Canon l) : collapse l = l :=
  canon_ext _ _ (Canon_collapse l) h (fun e => rawFn_collapse l e)

theorem new_mono_vec (l : List Monomial) : (Polynomial.new l).mono_vec = collapse l := rfl

theorem mem_enumFrom_snd {v : List ℤ} :
    ∀ {n : ℕ} {iv : ℕ × ℤ}, iv ∈ v.enumFrom n → iv.2 ∈ v := by
  induction v with
  | nil => intro n iv h; cases h
  | cons x t ih =>
    intro n iv h
    rcases List.mem_cons.1 h with rfl | h2
    · simp
    · exact List.mem_cons_of_mem x (ih h2)

theorem collapse_eq_nil {l : List Monomial} (hl : ∀ m ∈ l, rawFn l m.exp = 0) :
    collapse l = [] := by
  have : ((((l.map Monomial.exp).dedup).map
      (fun e => Monomial.mk (rawFn l e) e)).filter (fun m => m.value != 0)) = [] := by
    rw [List.filter_eq_nil_iff]
    intro m hm
    rcases List.mem_map.1 hm with ⟨e, he, rfl⟩
    rcases List.mem_map.1 (List.mem_dedup.1 he) with ⟨m0, hm0, rfl⟩
    simp [hl m0 hm0]
  show sortDesc ((((l.map Monomial.exp).dedup).map
      (fun e => Monomial.mk (rawFn l e) e)).filter (fun m => m.value != 0)) = []
  rw [this]
  rfl

/-- C10: calling roots() on the zero Expression (the Default value) returns no
result: max_exp of the zero Expression yields the default zero term {0, 0}
rather than failing, the Expression classifies as Invalid, and the dispatch
returns None without reaching any panic. -/
theorem roots_zero_expression :
    Polynomial.defaultP.max_exp = Monomial.default ∧
    Polynomial.defaultP.equation_type = EquationType.Invalid ∧
    roots Polynomial.defaultP = .ok none :=
  ⟨rfl, rfl, rfl⟩

/-- C3 evaluation at the failing input: the code classifies the two-term
canonical Expression x^2 + 1 (maximum exponent 2, exactly two nonzero terms)
as BigExp2Terms, because the two-term match arm is tested before the
exponent-2 arm; the claim (and the doc comment of the enum, which restricts
BigExp2Terms to exponents greater than 2) says it is Quadratic. -/
theorem equation_type_two_terms_exp2 :
    Polynomial.equation_type ⟨[⟨1, 2⟩, ⟨1, 0⟩]⟩ = EquationType.BigExp2Terms ∧
    Polynomial.equation_type ⟨[⟨1, 2⟩, ⟨1, 0⟩]⟩ ≠ EquationType.Quadratic :=
  ⟨rfl, by decide⟩

/-- C9 counterexample: parsing "-23x^-2" as an Expression does not yield the
single term with coefficient -23 and exponent -2. -/
theorem try_from_neg_exp_counterexample :
    Polynomial.try_from "-23x^-2" ≠ .ok ⟨[⟨-23, -2⟩]⟩ := by decide

/-- C9 amended: parsing "-23x^-2" as an Expression splits the string at the
interior minus sign, producing the two terms -23x and -2 (the buffered
substring "-23x^" parses with an empty exponent part, hence exponent 1);
only the Term parser keeps "-23x^-2" as the single term with coefficient -23
and exponent -2. -/
theorem try_from_neg_exp_split :
    Polynomial.try_from "-23x^-2" = .ok ⟨[⟨-23, 1⟩, ⟨-2, 0⟩]⟩ ∧
    Monomial.try_from "-23x^-2" = .ok ⟨-23, -2⟩ :=
  ⟨by decide, by decide⟩

/-- C4 counterexample: the canonical zero Expression produced by Default is
represented internally as the empty term sequence, not as the single term
{0, 0}. -/
theorem zero_default_empty_counterexample :
    Polynomial.defaultP.mono_vec = [] ∧
    Polynomial.defaultP.mono_vec ≠ [Monomial.default] :=
  ⟨rfl, by decide⟩

/-- C4 amended: every canonical zero Expression, whether produced by Default,
by collapsing a term list whose per-exponent sums are all zero, or by
construction from an all-zero or empty coefficient vector, is represented
internally as the empty term sequence; max_exp then reports the default term
{0, 0}, and the zero Expression displays as "0". -/
theorem zero_canonical_empty (l : List Monomial) (v : List ℤ)
    (hl : ∀ m ∈ l, rawFn l m.exp = 0) (hv : ∀ x ∈ v, x = 0) :
    Polynomial.defaultP = ⟨[]⟩ ∧ Polynomial.new l = ⟨[]⟩ ∧
    Polynomial.from_vec v = .ok ⟨[]⟩ ∧
    Polynomial.max_exp ⟨[]⟩ = Monomial.default ∧
    Polynomial.display ⟨[]⟩ = "0" := by
  refine ⟨rfl, ?_, ?_, rfl, rfl⟩
  · show Polynomial.mk (collapse l) = ⟨[]⟩
    rw [collapse_eq_nil hl]
  · show Polynomial.from_vec v = .ok ⟨[]⟩
    unfold Polynomial.from_vec
    have hnil : (v.enum.filterMap (fun iv =>
        if iv.2 = 0 then none
        else some (Monomial.mk iv.2 ((v.length - 1 - iv.1 : ℕ) : ℤ)))) = [] := by
      rw [List.filterMap_eq_nil_iff]
      intro iv hiv
      rw [if_pos (hv iv.2 (mem_enumFrom_snd hiv))]
    simp only [hnil, if_pos rfl]
    rfl

/-- C4 witness: the amended statement evaluated at the raw term list
[3x^2, -3x^2] (terms summing to zero) and the coefficient vector [0, 0]. -/
theorem zero_canonical_empty_witness :
    rawFn [⟨3, 2⟩, ⟨-3, 2⟩] 2 = 0 ∧
    Polynomial.new [⟨3, 2⟩, ⟨-3, 2⟩] = ⟨[]⟩ ∧
    Polynomial.from_vec [0, 0] = .ok ⟨[]⟩ ∧
    Polynomial.display ⟨[]⟩ = "0" := by
  have h := zero_canonical_empty [⟨3, 2⟩, ⟨-3, 2⟩] [0, 0] (by decide) (by decide)
  exact ⟨by decide, h.2.1, h.2.2.1, h.2.2.2.2⟩

theorem poly_eq_of_mono_vec {p q : Polynomial} (h : p.mono_vec = q.mono_vec) : p = q := by
  cases p; cases q; simpa using h

theorem sum_map_zero {α : Type} (l : List α) : (l.map (fun _ => (0 : ℤ))).sum = 0 := by
  induction l with
  | nil => rfl
  | cons a t ih => simp [ih]

theorem sum_map_add {α : Type} (l : List α) (f g : α → ℤ) :
    (l.map (fun x => f x + g x)).sum = (l.map f).sum + (l.map g).sum := by
  induction l with
  | nil => rfl
  | cons a t ih =>
    simp only [List.map_cons, List.sum_cons, ih]
    ring

theorem rawFn_map_neg (l : List Monomial) (e : ℤ) :
    rawFn (l.map Monomial.neg) e = -rawFn l e := by
  induction l with
  | nil => simp [rawFn]
  | cons m t ih =>
    rw [List.map_cons, rawFn_cons, rawFn_cons, ih, neg_add]
    congr 1
    by_cases h : m.exp = e <;> simp [Monomial.neg, h]

theorem mono_mul_comm (a b : Monomial) : a.mul b = b.mul a := by
  simp [Monomial.mul, mul_comm, add_comm]

theorem rawFn_map_mul (l : List Monomial) (t : Monomial) (e : ℤ) :
    rawFn (l.map (fun m => m.mul t)) e = t.value * rawFn l (e - t.exp) := by
  induction l with
  | nil => simp [rawFn]
  | cons m tl ih =>
    rw [List.map_cons, rawFn_cons, rawFn_cons, ih, mul_add]
    congr 1
    by_cases h : m.exp = e - t.exp
    · rw [if_pos h, if_pos (show (m.mul t).exp = e from by show m.exp + t.exp = e; omega)]
      show (m.mul t).value = t.value * m.value
      show m.value * t.value = t.value * m.value
      ring
    · rw [if_neg (show ¬ (m.mul t).exp = e from by show ¬ m.exp + t.exp = e; omega),
        if_neg h, mul_zero]

theorem prodRaw_cons (a : Monomial) (l r : List Monomial) :
    prodRaw (a :: l) r = r.map (fun b => a.mul b) ++ prodRaw l r := by
  simp [prodRaw]

theorem prodRaw_append_left (l1 l2 r : List Monomial) :
    prodRaw (l1 ++ l2) r = prodRaw l1 r ++ prodRaw l2 r := by
  simp [prodRaw]

theorem rawFn_map_mul_left (r : List Monomial) (a : Monomial) (e : ℤ) :
    rawFn (r.map (fun b => a.mul b)) e = a.value * rawFn r (e - a.exp) := by
  have : (r.map (fun b => a.mul b)) = (r.map (fun b => b.mul a)) := by
    apply List.map_congr_left
    intro b _
    exact (mono_mul_comm a b)
  rw [this, rawFn_map_mul]

theorem rawFn_map_mul_ite (r : List Monomial) (a : Monomial) (e : ℤ) :
    rawFn (r.map (fun b => a.mul b)) e
      = (r.map (fun b => b.value * (if a.exp = e - b.exp then a.value else 0))).sum := by
  induction r with
  | nil => rfl
  | cons b tr ihr =>
    rw [List.map_cons, rawFn_cons, List.map_cons, List.sum_cons, ihr]
    congr 1
    by_cases h : a.exp = e - b.exp
    · rw [if_pos h, if_pos (show (a.mul b).exp = e from by show a.exp + b.exp = e; omega)]
      show a.value * b.value = b.value * a.value
      ring
    · rw [if_neg (show ¬ (a.mul b).exp = e from by show ¬ a.exp + b.exp = e; omega),
        if_neg h, mul_zero]

theorem rawFn_prodRaw (l r : List Monomial) (e : ℤ) :
    rawFn (prodRaw l r) e = (r.map (fun b => b.value * rawFn l (e - b.exp))).sum := by
  induction l with
  | nil =>
    rw [show prodRaw [] r = [] from rfl, rawFn_nil]
    rw [show (fun (b : Monomial) => b.value * rawFn ([] : List Monomial) (e - b.exp))
      = (fun _ => (0 : ℤ)) from funext (fun b => by rw [rawFn_nil, mul_zero])]
    rw [sum_map_zero]
  | cons a t ih =>
    rw [prodRaw_cons, rawFn_append, ih]
    have hsplit : (fun (b : Monomial) => b.value * rawFn (a :: t) (e - b.exp))
        = (fun b => b.value * (if a.exp = e - b.exp then a.value else 0)
            + b.value * rawFn t (e - b.exp)) := by
      funext b
      rw [rawFn_cons, mul_add]
    rw [hsplit, sum_map_add, rawFn_map_mul_ite]

theorem rawFn_prodRaw_congr {l l2 : List Monomial}
    (h : ∀ x, rawFn l x = rawFn l2 x) (r : List Monomial) (e : ℤ) :
    rawFn (prodRaw l r) e = rawFn (prodRaw l2 r) e := by
  rw [rawFn_prodRaw, rawFn_prodRaw]
  congr 1
  apply List.map_congr_left
  intro b _
  rw [h]

theorem div_step_invariant (dividend divider : Polynomial) (q : List Monomial) (e : ℤ) :
    rawFn (prodRaw (q ++ [step_result dividend divider]) divider.mono_vec) e
      + rawFn (step_dividend dividend divider).mono_vec e
    = rawFn (prodRaw q divider.mono_vec) e + rawFn dividend.mono_vec e := by
  rw [prodRaw_append_left, rawFn_append]
  have hsingle : rawFn (prodRaw [step_result dividend divider] divider.mono_vec) e
      = (step_result dividend divider).value
        * rawFn divider.mono_vec (e - (step_result dividend divider).exp) := by
    rw [prodRaw_cons, show prodRaw [] divider.mono_vec = [] from rfl, List.append_nil,
      rawFn_map_mul_left]
  have hstepd : rawFn (step_dividend dividend divider).mono_vec e
      = rawFn dividend.mono_vec e
        - (step_result dividend divider).value
          * rawFn divider.mono_vec (e - (step_result dividend divider).exp) := by
    show rawFn (collapse (dividend.mono_vec
      ++ (collapse ((divider.mul_mono (step_result dividend divider)).mono_vec.map
        Monomial.neg)))) e = _
    rw [rawFn_collapse, rawFn_append, rawFn_collapse, rawFn_map_neg]
    show rawFn dividend.mono_vec e
      - rawFn (collapse (divider.mono_vec.map (fun m => m.mul (step_result dividend divider)))) e
      = _
    rw [rawFn_collapse, rawFn_map_mul]
  rw [hsingle, hstepd]
  ring

theorem div_loop_invariant : ∀ (fuel : ℕ) (dividend divider : Polynomial)
    (q : List Monomial) (qf r : Polynomial),
    div_loop fuel dividend divider q = some (qf, r) →
    ∀ e, rawFn (prodRaw qf.mono_vec divider.mono_vec) e + rawFn r.mono_vec e
      = rawFn (prodRaw q divider.mono_vec) e + rawFn dividend.mono_vec e := by
  intro fuel
  induction fuel with
  | zero =>
    intro d v q qf r h
    exact absurd h (by simp [div_loop])
  | succ n ih =>
    intro d v q qf r h e
    by_cases hg : (d.max_exp).exp ≥ (v.max_exp).exp
    · simp only [div_loop, if_pos hg] at h
      rw [ih _ _ _ _ _ h e, div_step_invariant]
    · simp only [div_loop, if_neg hg, Option.some.injEq, Prod.mk.injEq] at h
      obtain ⟨rfl, rfl⟩ := h
      exact congrArg (fun t => t + rawFn d.mono_vec e)
        (rawFn_prodRaw_congr (fun x => rawFn_collapse q x) v.mono_vec e)

theorem div_loop_exit : ∀ (fuel : ℕ) (d v : Polynomial) (qacc : List Monomial)
    (q r : Polynomial), div_loop fuel d v qacc = some (q, r) →
    (r.max_exp).exp < (v.max_exp).exp := by
  intro fuel
  induction fuel with
  | zero =>
    intro d v qacc q r h
    exact absurd h (by simp [div_loop])
  | succ n ih =>
    intro d v qacc q r h
    by_cases hg : (d.max_exp).exp ≥ (v.max_exp).exp
    · simp only [div_loop, if_pos hg] at h
      exact ih _ _ _ _ _ h
    · simp only [div_loop, if_neg hg, Option.some.injEq, Prod.mk.injEq] at h
      obtain ⟨rfl, rfl⟩ := h
      exact lt_of_not_ge hg

theorem div_loop_none_of_fixed {dividend divider : Polynomial}
    (hguard : (dividend.max_exp).exp ≥ (divider.max_exp).exp)
    (hfix : step_dividend dividend divider = dividend) :
    ∀ (fuel : ℕ) (q : List Monomial), div_loop fuel dividend divider q = none := by
  intro fuel
  induction fuel with
  | zero => intro q; rfl
  | succ n ih =>
    intro q
    simp only [div_loop, if_pos hguard, hfix]
    exact ih _

/-- C1 counterexample: for the canonical dividend x^2 and the canonical
divisor 2x (nonzero leading coefficient) the division operator never returns
a pair at all: the truncating leading-term division yields the term 0x, the
dividend is unchanged by the update, and the loop guard stays true forever. -/
theorem div_x2_by_2x_counterexample :
    div_terminates ⟨[⟨1, 2⟩]⟩ ⟨[⟨2, 1⟩]⟩ = False := by
  apply eq_false
  rintro ⟨fuel, q, r, h⟩
  rw [div_loop_none_of_fixed (by decide) (by decide) fuel []] at h
  exact Option.noConfusion h

/-- C2 evaluation at the failing input: dividing the constant Expression 4 by
the constant Expression 2 never terminates.  After one iteration the dividend
is the zero Expression; its max exponent is reported as 0, so the guard
0 >= 0 keeps holding while the dividend no longer changes. -/
theorem div_const_by_const_diverges :
    div_terminates ⟨[⟨4, 0⟩]⟩ ⟨[⟨2, 0⟩]⟩ = False := by
  apply eq_false
  rintro ⟨fuel, q, r, h⟩
  match fuel with
  | 0 => exact Option.noConfusion h
  | n + 1 =>
    have e1 : step_dividend ⟨[⟨4, 0⟩]⟩ ⟨[⟨2, 0⟩]⟩ = ⟨[]⟩ := by decide
    have e2 : step_result ⟨[⟨4, 0⟩]⟩ ⟨[⟨2, 0⟩]⟩ = ⟨2, 0⟩ := by decide
    have hstep : div_loop (n + 1) ⟨[⟨4, 0⟩]⟩ ⟨[⟨2, 0⟩]⟩ []
        = div_loop n ⟨[]⟩ ⟨[⟨2, 0⟩]⟩ [⟨2, 0⟩] := by
      simp only [div_loop, e1, e2, if_pos (show ((Polynomial.mk [⟨4, 0⟩]).max_exp).exp
        ≥ ((Polynomial.mk [⟨2, 0⟩]).max_exp).exp from by decide)]
      rfl
    rw [hstep, div_loop_none_of_fixed (by decide) (by decide) n [⟨2, 0⟩]] at h
    exact Option.noConfusion h

/-- C1 amended: on a canonical dividend, whenever the long-division loop does
return a pair (within some number of iterations), the pair satisfies
quotient * divisor + remainder = dividend, and the maximum exponent of the
remainder is strictly below that of the divisor. -/
theorem div_correct_when_terminates (dividend divider : Polynomial) (fuel : ℕ)
    (q r : Polynomial) (hd : Canon dividend.mono_vec)
    (hlead : (divider.max_exp).value ≠ 0)
    (h : div_loop fuel dividend divider [] = some (q, r)) :
    (q.mulP divider).add r = dividend ∧ (r.max_exp).exp < (divider.max_exp).exp := by
  refine ⟨?_, div_loop_exit fuel _ _ _ _ _ h⟩
  apply poly_eq_of_mono_vec
  apply canon_ext _ _ (Canon_collapse _) hd
  intro e
  show rawFn (collapse ((q.mulP divider).mono_vec ++ r.mono_vec)) e = rawFn dividend.mono_vec e
  rw [rawFn_collapse, rawFn_append]
  show rawFn (collapse (prodRaw q.mono_vec divider.mono_vec)) e + rawFn r.mono_vec e = _
  rw [rawFn_collapse]
  have hinv := div_loop_invariant fuel dividend divider [] q r h e
  rw [hinv, show prodRaw [] divider.mono_vec = [] from rfl, rawFn_nil, zero_add]

/-- C1 witness: the amended statement at (4x^2 + 32x + 64) / (2x + 8) with
fuel 3: the quotient is 2x + 8 and the remainder is the zero polynomial, and
(2x + 8) * (2x + 8) + 0 = 4x^2 + 32x + 64. -/
theorem div_correct_witness :
    Canon ([⟨4, 2⟩, ⟨32, 1⟩, ⟨64, 0⟩] : List Monomial) ∧
    ((Polynomial.mk [⟨2, 1⟩, ⟨8, 0⟩]).mulP ⟨[⟨2, 1⟩, ⟨8, 0⟩]⟩).add ⟨[]⟩
      = ⟨[⟨4, 2⟩, ⟨32, 1⟩, ⟨64, 0⟩]⟩ ∧
    (Polynomial.max_exp ⟨[]⟩).exp < (Polynomial.max_exp ⟨[⟨2, 1⟩, ⟨8, 0⟩]⟩).exp := by
  have h := div_correct_when_terminates ⟨[⟨4, 2⟩, ⟨32, 1⟩, ⟨64, 0⟩]⟩ ⟨[⟨2, 1⟩, ⟨8, 0⟩]⟩ 3
    ⟨[⟨2, 1⟩, ⟨8, 0⟩]⟩ ⟨[]⟩ (by decide) (by decide) (by decide)
  exact ⟨by decide, h.1, h.2⟩

theorem insertAsc_perm (x : ℤ) (l : List ℤ) : (insertAsc x l).Perm (x :: l) := by
  induction l with
  | nil => simp [insertAsc]
  | cons b t ih =>
    by_cases h : x ≤ b
    · simp [insertAsc, h]
    · simp only [insertAsc, if_neg h]
      exact (ih.cons b).trans (List.Perm.swap x b t)

theorem sortAsc_perm (l : List ℤ) : (sortAsc l).Perm l := by
  induction l with
  | nil => exact List.Perm.refl []
  | cons x t ih => exact (insertAsc_perm x (sortAsc t)).trans (ih.cons x)

theorem sorted_insertAsc {x : ℤ} {l : List ℤ} (h : l.Sorted (· ≤ ·)) :
    (insertAsc x l).Sorted (· ≤ ·) := by
  induction l with
  | nil => simp [insertAsc]
  | cons b t ih =>
    rcases List.pairwise_cons.1 h with ⟨hb, ht⟩
    by_cases hle : x ≤ b
    · simp only [insertAsc, if_pos hle]
      refine List.pairwise_cons.2 ⟨?_, h⟩
      intro y hy
      rcases List.mem_cons.1 hy with rfl | hy
      · exact hle
      · exact le_trans hle (hb y hy)
    · simp only [insertAsc, if_neg hle]
      refine List.pairwise_cons.2 ⟨?_, ih ht⟩
      intro y hy
      rcases List.mem_cons.1 ((insertAsc_perm x t).mem_iff.1 hy) with rfl | hy
      · exact le_of_not_le hle
      · exact hb y hy

theorem sorted_sortAsc (l : List ℤ) : (sortAsc l).Sorted (· ≤ ·) := by
  induction l with
  | nil => simp [sortAsc]
  | cons x t ih => exact sorted_insertAsc ih

theorem natRootExact_some {m n k : ℕ} (h : natRootExact m n = some k) : k ^ n = m := by
  have := List.find?_some h
  simpa using this

theorem fsqrt_neg {q : ℚ} (h : q < 0) : fsqrt q = none := by
  unfold fsqrt
  rw [if_pos h]

theorem fsqrt_some {q s : ℚ} (h : fsqrt q = some s) : 0 ≤ s ∧ s * s = q := by
  unfold fsqrt at h
  by_cases hneg : q < 0
  · rw [if_pos hneg] at h
    exact absurd h (by simp)
  · rw [if_neg hneg] at h
    cases hn : natRootExact q.num.toNat 2 with
    | none => rw [hn] at h; exact absurd h (by simp)
    | some n =>
      cases hd : natRootExact q.den 2 with
      | none => rw [hn, hd] at h; exact absurd h (by simp)
      | some d =>
        rw [hn, hd] at h
        have hval : ((n : ℚ) / (d : ℚ)) = s := by
          have h2 : some ((n : ℚ) / (d : ℚ)) = some s := h
          injection h2
        have hn2 : (n : ℕ) * n = q.num.toNat := by
          have h2 := natRootExact_some hn
          calc (n : ℕ) * n = n ^ 2 := by ring
          _ = q.num.toNat := h2
        have hd2 : (d : ℕ) * d = q.den := by
          have h2 := natRootExact_some hd
          calc (d : ℕ) * d = d ^ 2 := by ring
          _ = q.den := h2
        have hnum : 0 ≤ q.num := Rat.num_nonneg.2 (le_of_not_lt hneg)
        have hnq : ((n : ℚ)) * n = (q.num : ℚ) := by
          have h3 : ((n * n : ℕ) : ℚ) = ((q.num.toNat : ℕ) : ℚ) := by exact_mod_cast hn2
          have h4 : ((q.num.toNat : ℤ) : ℚ) = (q.num : ℚ) := by
            rw [Int.toNat_of_nonneg hnum]
          rw [Nat.cast_mul] at h3
          rw [h3, ← h4]
          norm_cast
        have hdq : ((d : ℚ)) * d = (q.den : ℚ) := by
          have h3 : ((d * d : ℕ) : ℚ) = ((q.den : ℕ) : ℚ) := by exact_mod_cast hd2
          rw [Nat.cast_mul] at h3
          exact h3
        constructor
        · rw [← hval]
          positivity
        · rw [← hval, div_mul_div_comm, hnq, hdq]
          exact Rat.num_div_den q

theorem fromF64_some {q : ℚ} {z : ℤ} (h : fromF64 q = some z) : q = (z : ℚ) := by
  unfold fromF64 at h
  by_cases hd : q.den = 1
  · rw [if_pos hd] at h
    injection h with h2
    rw [← h2, ← Rat.num_div_den q, hd]
    simp
  · rw [if_neg hd] at h
    exact absurd h (by simp)

/-- C7 counterexample: for the Biquadratic Expression x^4 - 5x^2 - 36 the
auxiliary quadratic has the solutions u = -4 and u = 9 (the distinct
two-solution case with one negative radicand), yet the search does not fail:
it returns [-3, -2, 2, 3], where the values -2 and 2 are derived from
|u| = |-4| and are not real roots of the Expression. -/
theorem biquadratic_neg_radicand_counterexample :
    roots ⟨[⟨1, 4⟩, ⟨-5, 2⟩, ⟨-36, 0⟩]⟩ = .ok (some [-3, -2, 2, 3]) ∧
    (1 * (2 : ℤ) ^ 4 - 5 * 2 ^ 2 - 36 ≠ 0) :=
  ⟨by with_unfolding_all rfl, by decide⟩

/-- C7 amended: in the biquadratic strategy a negative radicand causes the
whole search to fail via the fallible-conversion mechanism only in the
single-solution case, where the square root is applied to the solution
directly; in the two-solution cases (equal-magnitude and distinct) the code
takes the absolute value of each radicand before the square root, so a
negative solution u contributes roots derived from |u| instead of failing,
as the evaluation at x^4 - 5x^2 - 36 (u-solutions -4 and 9, returned value
[-3, -2, 2, 3]) exhibits. -/
theorem biquadratic_single_neg_radicand (p : Polynomial) (u : ℤ)
    (hq : quadratic_root (Polynomial.new [⟨(p.find_by_exp 4).value, 2⟩,
      ⟨(p.find_by_exp 2).value, 1⟩, p.find_by_exp 0]) = .ok (some [u]))
    (hu : u < 0) :
    biquadratic_root p = .ok none ∧
    biquadratic_root ⟨[⟨1, 4⟩, ⟨-5, 2⟩, ⟨-36, 0⟩]⟩ = .ok (some [-3, -2, 2, 3]) := by
  constructor
  · simp only [biquadratic_root, hq]
    have hneg : fsqrt ((u : ℤ) : ℚ) = none := fsqrt_neg (by exact_mod_cast hu)
    simp [toF64, hneg]
  · with_unfolding_all rfl

/-- C7 witness: the amended statement at x^4 + 4x^2 + 4, whose auxiliary
quadratic has the single (double) solution u = -2: the search fails. -/
theorem biquadratic_single_neg_radicand_witness :
    (-2 : ℤ) < 0 ∧ biquadratic_root ⟨[⟨1, 4⟩, ⟨4, 2⟩, ⟨4, 0⟩]⟩ = .ok none := by
  have h := biquadratic_single_neg_radicand ⟨[⟨1, 4⟩, ⟨4, 2⟩, ⟨4, 0⟩]⟩ (-2)
    (by with_unfolding_all rfl) (by decide)
  exact ⟨by decide, h.1⟩

theorem quadratic_root_main_branch (a b c : ℤ) (hb : b ≠ 0) :
    quadratic_root ⟨[⟨a, 2⟩, ⟨b, 1⟩, ⟨c, 0⟩]⟩
      = (match (fsqrt ((b : ℚ) * b - 4 * a * c)).bind
            (fun s => fromF64 ((-(b : ℚ) + s) / (2 * a))) with
        | none => Except.ok none
        | some r1 =>
          match (fsqrt ((b : ℚ) * b - 4 * a * c)).bind
              (fun s => fromF64 ((-(b : ℚ) - s) / (2 * a))) with
          | none => Except.ok none
          | some r2 => if r1 = r2 then Except.ok (some [r1])
              else Except.ok (some (sortAsc [r1, r2]))) := by
  have hbq : ((b : ℤ) : ℚ) ≠ 0 := Int.cast_ne_zero.2 hb
  show (if ((b : ℤ) : ℚ) = 0 ∧ ((c : ℤ) : ℚ) = 0 then Except.ok (some [0]) else _) = _
  rw [if_neg (fun hcon => hbq hcon.1)]
  show (if ((b : ℤ) : ℚ) = 0 then _ else _) = _
  rw [if_neg hbq]
  rfl

theorem root_of_formula {a b c : ℤ} (ha : a ≠ 0) {s : ℚ}
    (hs : s * s = (b : ℚ) * b - 4 * a * c) {r : ℤ}
    (hr : ((-(b : ℚ) + s) / (2 * a)) = (r : ℚ) ∨ ((-(b : ℚ) - s) / (2 * a)) = (r : ℚ)) :
    a * r ^ 2 + b * r + c = 0 := by
  have haq : ((a : ℤ) : ℚ) ≠ 0 := Int.cast_ne_zero.2 ha
  have h2a : (2 * (a : ℚ)) ≠ 0 := mul_ne_zero two_ne_zero haq
  have key : (a : ℚ) * r ^ 2 + b * r + c = 0 := by
    have h4 : (4 : ℚ) * a * ((a : ℚ) * r ^ 2 + b * r + c) = 0 := by
      rcases hr with hr | hr
      · have hsr : s = 2 * (a : ℚ) * r + b := by
          rw [div_eq_iff h2a] at hr
          linarith
        rw [hsr] at hs
        linear_combination hs
      · have hsr : s = -((b : ℚ)) - 2 * a * r := by
          rw [div_eq_iff h2a] at hr
          linarith
        rw [hsr] at hs
        linear_combination hs
    have h4a : (4 : ℚ) * a ≠ 0 := mul_ne_zero (by norm_num) haq
    exact (mul_eq_zero.1 h4).resolve_left h4a
  exact_mod_cast key

/-- C6: in the main branch of the quadratic strategy (nonzero quadratic and
linear coefficients, integer coefficient type): every returned value is an
exact root of the Expression, so a root that is not exactly representable in
T is never returned rounded or truncated; a failed square root (negative or
irrational discriminant) or a failed exact narrowing of either root makes the
whole search fail with no result; when both narrowings succeed the roots are
returned sorted ascending, and a zero discriminant collapses them to one
root. -/
theorem quadratic_root_exactness (a b c : ℤ) (ha : a ≠ 0) (hb : b ≠ 0) :
    (∀ l, quadratic_root ⟨[⟨a, 2⟩, ⟨b, 1⟩, ⟨c, 0⟩]⟩ = .ok (some l) →
      (∀ x ∈ l, a * x ^ 2 + b * x + c = 0) ∧ List.Sorted (· ≤ ·) l) ∧
    (fsqrt ((b : ℚ) * b - 4 * a * c) = none →
      quadratic_root ⟨[⟨a, 2⟩, ⟨b, 1⟩, ⟨c, 0⟩]⟩ = .ok none) ∧
    (∀ s, fsqrt ((b : ℚ) * b - 4 * a * c) = some s →
      fromF64 ((-(b : ℚ) + s) / (2 * a)) = none ∨ fromF64 ((-(b : ℚ) - s) / (2 * a)) = none →
      quadratic_root ⟨[⟨a, 2⟩, ⟨b, 1⟩, ⟨c, 0⟩]⟩ = .ok none) ∧
    (∀ s r1 r2, fsqrt ((b : ℚ) * b - 4 * a * c) = some s →
      fromF64 ((-(b : ℚ) + s) / (2 * a)) = some r1 →
      fromF64 ((-(b : ℚ) - s) / (2 * a)) = some r2 →
      quadratic_root ⟨[⟨a, 2⟩, ⟨b, 1⟩, ⟨c, 0⟩]⟩
        = .ok (some (if r1 = r2 then [r1] else sortAsc [r1, r2]))) ∧
    ((b : ℚ) * b - 4 * a * c = 0 →
      ∀ l, quadratic_root ⟨[⟨a, 2⟩, ⟨b, 1⟩, ⟨c, 0⟩]⟩ = .ok (some l) → ∃ x, l = [x]) := by
  have hq := quadratic_root_main_branch a b c hb
  refine ⟨?_, ?_, ?_, ?_, ?_⟩
  · intro l hl
    rw [hq] at hl
    cases hsq : fsqrt ((b : ℚ) * b - 4 * a * c) with
    | none => simp only [hsq] at hl; simp at hl
    | some s =>
      simp only [hsq, Option.some_bind] at hl
      cases h1 : fromF64 ((-(b : ℚ) + s) / (2 * a)) with
      | none => simp only [h1] at hl; simp at hl
      | some r1 =>
        simp only [h1] at hl
        cases h2 : fromF64 ((-(b : ℚ) - s) / (2 * a)) with
        | none => simp only [h2] at hl; simp at hl
        | some r2 =>
          simp only [h2] at hl
          obtain ⟨hs0, hss⟩ := fsqrt_some hsq
          have hroot1 : a * r1 ^ 2 + b * r1 + c = 0 :=
            root_of_formula ha hss (Or.inl (fromF64_some h1))
          have hroot2 : a * r2 ^ 2 + b * r2 + c = 0 :=
            root_of_formula ha hss (Or.inr (fromF64_some h2))
          by_cases heq : r1 = r2
          · rw [if_pos heq] at hl
            simp only [Except.ok.injEq, Option.some.injEq] at hl
            subst hl
            refine ⟨?_, by simp⟩
            intro x hx
            rw [List.mem_singleton.1 hx]
            exact hroot1
          · rw [if_neg heq] at hl
            simp only [Except.ok.injEq, Option.some.injEq] at hl
            subst hl
            refine ⟨?_, sorted_sortAsc _⟩
            intro x hx
            rcases List.mem_cons.1 ((sortAsc_perm [r1, r2]).mem_iff.1 hx) with rfl | hx2
            · exact hroot1
            · rw [List.mem_singleton.1 hx2]
              exact hroot2
  · intro hnone
    rw [hq, hnone]
    rfl
  · intro s hs hor
    rw [hq, hs]
    simp only [Option.some_bind]
    rcases hor with hnone | hnone
    · simp only [hnone]
    · cases h1 : fromF64 ((-(b : ℚ) + s) / (2 * a)) with
      | none => simp only [h1]
      | some r1 => simp only [h1, hnone]
  · intro s r1 r2 hs h1 h2
    rw [hq, hs]
    simp only [Option.some_bind, h1, h2]
    by_cases heq : r1 = r2 <;> simp [heq]
  · intro hd0 l hl
    rw [hq] at hl
    have hf0 : fsqrt ((b : ℚ) * b - 4 * a * c) = some 0 := by
      rw [hd0]
      with_unfolding_all rfl
    have hxx : fromF64 ((-(b : ℚ) - 0) / (2 * a)) = fromF64 ((-(b : ℚ) + 0) / (2 * a)) := by
      rw [show (-(b : ℚ) - 0) / (2 * (a : ℚ)) = (-(b : ℚ) + 0) / (2 * a) from by ring]
    simp only [hf0, Option.some_bind, hxx] at hl
    cases h1 : fromF64 ((-(b : ℚ) + 0) / (2 * a)) with
    | none => simp only [h1] at hl; simp at hl
    | some r1 =>
      simp only [h1, if_pos rfl, if_true, Except.ok.injEq, Option.some.injEq] at hl
      exact ⟨r1, hl.symm⟩

/-- C6 witness: the statement at x^2 + 3x + 2 (roots -2 and -1): the value -2
returned by the search is an exact root and the returned list is sorted. -/
theorem quadratic_root_exactness_witness :
    (1 : ℤ) ≠ 0 ∧ (3 : ℤ) ≠ 0 ∧
    (1 * (-2 : ℤ) ^ 2 + 3 * (-2) + 2 = 0) ∧
    List.Sorted (· ≤ ·) ([-2, -1] : List ℤ) := by
  have h := (quadratic_root_exactness 1 3 2 (by decide) (by decide)).1
    [-2, -1] (by with_unfolding_all rfl)
  exact ⟨by decide, by decide, h.1 (-2) (by simp), h.2⟩

theorem find_divs_spec (value : ℕ) :
    ∃ pos : List ℤ, List.Sorted (· < ·) pos ∧
      (∀ x : ℤ, x ∈ pos ↔ 0 < x ∧ x ∣ (value : ℤ) ∧ x ≤ (value : ℤ)) ∧
      find_divs value = pos ++ pos.map (fun x => -x) := by
  refine ⟨List.map (fun (d : ℕ) => (d : ℤ))
    (List.filter (fun (d : ℕ) => value % d = 0) (List.range' 1 value)), ?_, ?_, by rfl⟩
  · exact ((List.pairwise_lt_range' 1 value).filter _).map _
      (fun a b hab => by exact_mod_cast hab)
  · intro x
    constructor
    · intro hx
      rcases List.mem_map.1 hx with ⟨d, hd, rfl⟩
      rcases List.mem_filter.1 hd with ⟨hmem, hmod⟩
      rcases List.mem_range'_1.1 hmem with ⟨h1, h2⟩
      refine ⟨by exact_mod_cast h1, ?_, by exact_mod_cast Nat.lt_succ_iff.1 (by omega)⟩
      exact Int.natCast_dvd_natCast.2 (Nat.dvd_of_mod_eq_zero (of_decide_eq_true hmod))
    · rintro ⟨hpos, hdvd, hle⟩
      obtain ⟨d, rfl⟩ := Int.eq_ofNat_of_zero_le (le_of_lt hpos)
      refine List.mem_map.2 ⟨d, List.mem_filter.2 ⟨?_, ?_⟩, rfl⟩
      · refine List.mem_range'_1.2 ⟨by exact_mod_cast hpos, ?_⟩
        have : d ≤ value := by exact_mod_cast hle
        omega
      · exact decide_eq_true (Nat.mod_eq_zero_of_dvd (Int.natCast_dvd_natCast.1 hdvd))

theorem synLoop_foldl (poly : Polynomial) (d : ℤ) :
    ∀ (m : ℕ) (acc : List Monomial) (prev : ℤ),
      synLoop poly d (descList m) ((poly.max_exp).exp - m) (prev * d) acc
        = ((fun st => if st.2 = 0 then some (collapse st.1) else none)
            ((descList m).foldl
              (fun st e =>
                ((st.1 ++ [Monomial.mk (st.2 * d + (poly.find_by_exp e).value) (e - 1)]),
                  st.2 * d + (poly.find_by_exp e).value)) (acc, prev))) := by
  intro m
  induction m with
  | zero =>
    intro acc prev
    simp only [descList, synLoop, List.foldl_cons, List.foldl_nil]
    rw [show (poly.find_by_exp 0).value + prev * d = prev * d + (poly.find_by_exp 0).value
      from add_comm _ _]
    rw [show ((poly.max_exp).exp - ((0 : ℕ) : ℤ) = (poly.max_exp).exp) from by push_cast; ring]
    by_cases hs : prev * d + (poly.find_by_exp 0).value = 0
    · rw [if_pos ⟨rfl, hs⟩, if_pos hs]
    · rw [if_neg (fun hcon => hs hcon.2), if_neg hs]
  | succ n ih =>
    intro acc prev
    simp only [descList, synLoop, List.foldl_cons]
    rw [show (poly.find_by_exp ((n + 1 : ℕ) : ℤ)).value + prev * d
      = prev * d + (poly.find_by_exp ((n + 1 : ℕ) : ℤ)).value from add_comm _ _]
    rw [if_neg (fun hcon => by
      have h2 := hcon.1
      omega)]
    rw [show ((poly.max_exp).exp - ((n + 1 : ℕ) : ℤ) + 1 = (poly.max_exp).exp - (n : ℕ))
      from by push_cast; ring]
    exact ih (acc ++ [Monomial.mk (prev * d + (poly.find_by_exp ((n + 1 : ℕ) : ℤ)).value)
      (((n + 1 : ℕ) : ℤ) - 1)]) (prev * d + (poly.find_by_exp ((n + 1 : ℕ) : ℤ)).value)

theorem synLoop_spec (poly : Polynomial) (d : ℤ) (hmax : 0 ≤ (poly.max_exp).exp) :
    synLoop poly d (descExps (poly.max_exp).exp) 0 0 []
      = (if hornerRem poly d = 0 then some (collapse (synQuot poly d)) else none) := by
  have happ := synLoop_foldl poly d (poly.max_exp).exp.toNat [] 0
  rw [zero_mul] at happ
  rw [show ((poly.max_exp).exp - (((poly.max_exp).exp.toNat : ℕ) : ℤ) = 0) from by omega] at happ
  unfold descExps
  rw [if_neg (not_lt.2 hmax)]
  rw [happ]
  unfold hornerRem synQuot synDivide descExps
  rw [if_neg (not_lt.2 hmax)]

theorem find_root_loop_fst (poly : Polynomial) (hmax : 0 ≤ (poly.max_exp).exp) :
    ∀ ds : List ℤ,
      (find_root_loop poly ds).1 = ds.find? (fun d => hornerRem poly d == 0) := by
  intro ds
  induction ds with
  | nil => rfl
  | cons d ds ih =>
    by_cases h0 : hornerRem poly d = 0
    · have hs := synLoop_spec poly d hmax
      rw [if_pos h0] at hs
      rw [List.find?_cons_of_pos ds (by simpa using h0)]
      simp only [find_root_loop, hs]
      by_cases ht : collapse (synQuot poly d) = [] <;> simp [ht]
    · have hs := synLoop_spec poly d hmax
      rw [if_neg h0] at hs
      rw [List.find?_cons_of_neg ds (by simpa using h0)]
      simp only [find_root_loop, hs]
      exact ih

theorem find_root_loop_rest (poly : Polynomial) (hmax : 0 ≤ (poly.max_exp).exp) :
    ∀ (ds : List ℤ) (r : ℤ),
      (∀ t, find_root_loop poly ds = (some r, some t) →
        t = ⟨collapse (synQuot poly r)⟩ ∧ collapse (synQuot poly r) ≠ []) ∧
      (find_root_loop poly ds = (some r, none) → collapse (synQuot poly r) = []) := by
  intro ds
  induction ds with
  | nil =>
    intro r
    constructor
    · intro t h
      exact absurd h (by simp [find_root_loop])
    · intro h
      exact absurd h (by simp [find_root_loop])
  | cons d ds ih =>
    intro r
    by_cases h0 : hornerRem poly d = 0
    · have hs := synLoop_spec poly d hmax
      rw [if_pos h0] at hs
      constructor
      · intro t h
        simp only [find_root_loop, hs] at h
        by_cases ht : collapse (synQuot poly d) = []
        · rw [if_pos ht] at h
          simp at h
        · rw [if_neg ht] at h
          simp only [Prod.mk.injEq, Option.some.injEq] at h
          obtain ⟨hdr, hts⟩ := h
          subst hdr
          exact ⟨hts.symm, ht⟩
      · intro h
        simp only [find_root_loop, hs] at h
        by_cases ht : collapse (synQuot poly d) = []
        · rw [if_pos ht] at h
          simp only [Prod.mk.injEq, Option.some.injEq] at h
          rw [← h.1]
          exact ht
        · rw [if_neg ht] at h
          simp at h
    · have hs := synLoop_spec poly d hmax
      rw [if_neg h0] at hs
      constructor
      · intro t h
        simp only [find_root_loop, hs] at h
        exact (ih r).1 t h
      · intro h
        simp only [find_root_loop, hs] at h
        exact (ih r).2 h

/-- C8: the general high-degree (BigExp) root search: the candidates tried
are exactly the positive divisors of the absolute value of the constant term
in ascending order followed by their negations in the same order (trial
division up to the value itself); the recorded root is the first candidate
whose synthetic-division remainder (the Horner sweep over the exponents from
max_exp down to 0) is exactly zero, and the quotient kept is the collapsed
synthetic quotient at that candidate; the strategy recursively calls roots()
on that quotient when it is nonzero, unions any recursive result with the
found root, and returns the union sorted ascending, or no result when no
candidate divides exactly. -/
theorem big_exp_root_spec (poly : Polynomial) (fuel : ℕ)
    (hmax : 0 ≤ (poly.max_exp).exp) :
    (∃ pos : List ℤ, List.Sorted (· < ·) pos ∧
      (∀ x : ℤ, x ∈ pos ↔ 0 < x ∧ x ∣ (rootBase poly : ℤ) ∧ x ≤ (rootBase poly : ℤ)) ∧
      find_divs (rootBase poly) = pos ++ pos.map (fun x => -x)) ∧
    (find_root poly).1
      = (find_divs (rootBase poly)).find? (fun d => hornerRem poly d == 0) ∧
    (∀ r t, find_root poly = (some r, some t) → t = ⟨collapse (synQuot poly r)⟩) ∧
    (∀ r t l, find_root poly = (some r, some t) → rootsF fuel t = .ok (some l) →
      big_exp_root_core (rootsF fuel) poly = .ok (some (sortAsc (r :: l))) ∧
      (sortAsc (r :: l)).Perm (r :: l) ∧ List.Sorted (· ≤ ·) (sortAsc (r :: l))) ∧
    (∀ r t, find_root poly = (some r, some t) → rootsF fuel t = .ok none →
      big_exp_root_core (rootsF fuel) poly = .ok (some [r])) ∧
    (∀ r, find_root poly = (some r, none) →
      big_exp_root_core (rootsF fuel) poly = .ok (some [r])) ∧
    ((find_root poly).1 = none → big_exp_root_core (rootsF fuel) poly = .ok none) := by
  refine ⟨find_divs_spec (rootBase poly), find_root_loop_fst poly hmax _, ?_, ?_, ?_, ?_, ?_⟩
  · intro r t h
    exact ((find_root_loop_rest poly hmax _ r).1 t h).1
  · intro r t l hfr hrec
    refine ⟨?_, sortAsc_perm _, sorted_sortAsc _⟩
    simp only [big_exp_root_core, hfr, hrec]
  · intro r t hfr hrec
    simp only [big_exp_root_core, hfr, hrec]
    rfl
  · intro r hfr
    simp only [big_exp_root_core, hfr]
    rfl
  · intro h1
    cases hfr : find_root poly with
    | mk fst snd =>
      rw [hfr] at h1
      cases fst with
      | none => simp only [big_exp_root_core, hfr]
      | some r => exact absurd h1 (by simp)

/-- C8 witness: the statement at x^3 - 5x^2 - x + 5 with fuel 3: the root
recorded by find_root is the first divisor candidate with zero remainder,
and with the deflated quotient x^2 - 4x - 5 (recursive roots [-1, 5]) the
strategy returns the sorted union of 1 with [-1, 5]. -/
theorem big_exp_root_spec_witness :
    (0 : ℤ) ≤ (Polynomial.max_exp ⟨[⟨1, 3⟩, ⟨-5, 2⟩, ⟨-1, 1⟩, ⟨5, 0⟩]⟩).exp ∧
    (find_root ⟨[⟨1, 3⟩, ⟨-5, 2⟩, ⟨-1, 1⟩, ⟨5, 0⟩]⟩).1
      = (find_divs (rootBase ⟨[⟨1, 3⟩, ⟨-5, 2⟩, ⟨-1, 1⟩, ⟨5, 0⟩]⟩)).find?
          (fun d => hornerRem ⟨[⟨1, 3⟩, ⟨-5, 2⟩, ⟨-1, 1⟩, ⟨5, 0⟩]⟩ d == 0) ∧
    big_exp_root_core (rootsF 3) ⟨[⟨1, 3⟩, ⟨-5, 2⟩, ⟨-1, 1⟩, ⟨5, 0⟩]⟩
      = .ok (some (sortAsc (1 :: [-1, 5]))) := by
  have h := big_exp_root_spec ⟨[⟨1, 3⟩, ⟨-5, 2⟩, ⟨-1, 1⟩, ⟨5, 0⟩]⟩ 3 (by decide)
  refine ⟨by decide, h.2.1, ?_⟩
  exact (h.2.2.2.1 1 ⟨[⟨1, 2⟩, ⟨-4, 1⟩, ⟨-5, 0⟩]⟩ [-1, 5] (by decide)
    (by with_unfolding_all rfl)).1

theorem exps_le_head {m : Monomial} {t : List Monomial}
    (hp : (m :: t).Pairwise (fun a b => b.exp < a.exp)) :
    ∀ x ∈ m :: t, x.exp ≤ m.exp := by
  intro x hx
  rcases List.mem_cons.1 hx with rfl | hx
  · exact le_refl _
  · exact le_of_lt ((List.pairwise_cons.1 hp).1 x hx)

theorem length_le_of_desc_bounded : ∀ (l : List Monomial) (E : ℤ),
    l.Pairwise (fun a b => b.exp < a.exp) → (∀ m ∈ l, 0 ≤ m.exp) →
    (∀ m ∈ l, m.exp ≤ E) → 0 ≤ E → (l.length : ℤ) ≤ E + 1 := by
  intro l
  induction l with
  | nil =>
    intro E _ _ _ hE
    simp
    omega
  | cons m t ih =>
    intro E hp hn hb hE
    rcases t with _ | ⟨m2, t2⟩
    · simp
      omega
    · have hm2 : m2.exp < m.exp := (List.pairwise_cons.1 hp).1 m2 (by simp)
      have h0 : 0 ≤ m2.exp := hn m2 (by simp)
      have hrec : (((m2 :: t2) : List Monomial).length : ℤ) ≤ (m.exp - 1) + 1 := by
        refine ih (m.exp - 1) (List.pairwise_cons.1 hp).2
          (fun x hx => hn x (List.mem_cons_of_mem m hx)) ?_ (by omega)
        intro x hx
        have := (List.pairwise_cons.1 hp).1 x hx
        omega
      have hmE : m.exp ≤ E := hb m (by simp)
      simp only [List.length_cons] at hrec ⊢
      push_cast at hrec ⊢
      omega

theorem rawFn_mem_canon : ∀ {l : List Monomial}, Canon l → ∀ {m}, m ∈ l →
    rawFn l m.exp = m.value := by
  intro l
  induction l with
  | nil =>
    intro _ m hm
    cases hm
  | cons a t ih =>
    intro hc m hm
    rcases List.mem_cons.1 hm with rfl | hm2
    · exact rawFn_head m t (List.pairwise_cons.1 hc.1).1
    · have hlt : m.exp < a.exp := (List.pairwise_cons.1 hc.1).1 m hm2
      rw [rawFn_cons, if_neg (by omega), zero_add]
      exact ih ⟨(List.pairwise_cons.1 hc.1).2, fun x hx => hc.2 x (List.mem_cons_of_mem a hx)⟩ hm2

theorem mem_collapse_exp {l : List Monomial} {m : Monomial} (hm : m ∈ collapse l) :
    m.exp ∈ l.map Monomial.exp := by
  unfold collapse at hm
  have h1 := (sortDesc_perm _).mem_iff.1 hm
  have h2 := List.mem_of_mem_filter h1
  rcases List.mem_map.1 h2 with ⟨e, he, rfl⟩
  exact List.mem_dedup.1 he

theorem not_mem_of_find_zero {p : Polynomial} (hc : Canon p.mono_vec) {e : ℤ}
    (h : (p.find_by_exp e).value = 0) : ∀ m ∈ p.mono_vec, m.exp ≠ e := by
  intro m hm hme
  unfold Polynomial.find_by_exp at h
  cases hf : p.mono_vec.find? (fun x => x.exp = e) with
  | none =>
    have := List.find?_eq_none.1 hf m hm
    simp [hme] at this
  | some x =>
    rw [hf] at h
    have hxmem := List.mem_of_find?_eq_some hf
    exact hc.2 x hxmem (by simpa using h)

theorem head_of_max_exp {p : Polynomial} (h : (p.max_exp).exp ≠ 0) :
    ∃ t, p.mono_vec = p.max_exp :: t := by
  cases hv : p.mono_vec with
  | nil =>
    exfalso
    apply h
    unfold Polynomial.max_exp
    rw [hv]
    rfl
  | cons m t =>
    refine ⟨t, ?_⟩
    unfold Polynomial.max_exp
    rw [hv]

theorem linear_shape {p : Polynomial} (hc : Canon p.mono_vec)
    (hn : ∀ m ∈ p.mono_vec, 0 ≤ m.exp) (hhead : (p.max_exp).exp = 1) :
    (∃ a, p.mono_vec = [⟨a, 1⟩]) ∨ ∃ a b, p.mono_vec = [⟨a, 1⟩, ⟨b, 0⟩] := by
  obtain ⟨t, hv⟩ := head_of_max_exp (p := p) (by simp [hhead])
  rcases hme : p.max_exp with ⟨v, e⟩
  rw [hme] at hv hhead
  have he : e = 1 := hhead
  subst he
  rcases t with _ | ⟨⟨v2, e2⟩, t2⟩
  · exact Or.inl ⟨v, hv⟩
  · rw [hv] at hc hn
    have hm2lt : e2 < 1 := (List.pairwise_cons.1 hc.1).1 ⟨v2, e2⟩ (by simp)
    have hm2n : (0 : ℤ) ≤ e2 := hn ⟨v2, e2⟩ (by simp)
    have he2 : e2 = 0 := by omega
    subst he2
    rcases t2 with _ | ⟨⟨v3, e3⟩, t3⟩
    · exact Or.inr ⟨v, v2, hv⟩
    · exfalso
      have h3lt : e3 < 0 :=
        (List.pairwise_cons.1 (List.pairwise_cons.1 hc.1).2).1 ⟨v3, e3⟩ (by simp)
      have h3n : (0 : ℤ) ≤ e3 := hn ⟨v3, e3⟩ (by simp)
      omega

theorem synDivide_eq_foldl (poly : Polynomial) (d : ℤ) :
    synDivide poly d
      = (descExps (poly.max_exp).exp).foldl (synStep poly d) ([], 0) := rfl

theorem foldl_synStep_mem (poly : Polynomial) (d : ℤ) :
    ∀ (es : List ℤ) (st : List Monomial × ℤ),
      ∀ m ∈ (es.foldl (synStep poly d) st).1, m ∈ st.1 ∨ (m.exp + 1) ∈ es := by
  intro es
  induction es with
  | nil =>
    intro st m hm
    exact Or.inl hm
  | cons e es ih =>
    intro st m hm
    rw [List.foldl_cons] at hm
    rcases ih (synStep poly d st e) m hm with hin | hin
    · unfold synStep at hin
      rcases List.mem_append.1 hin with h1 | h1
      · exact Or.inl h1
      · right
        rcases List.mem_singleton.1 h1 with rfl
        simp
    · exact Or.inr (List.mem_cons_of_mem e hin)

theorem foldl_synStep_neg1 (poly : Polynomial) (d : ℤ) :
    ∀ (es : List ℤ) (st : List Monomial × ℤ), 0 ∉ es →
      rawFn (es.foldl (synStep poly d) st).1 (-1) = rawFn st.1 (-1) := by
  intro es
  induction es with
  | nil =>
    intro st _
    rfl
  | cons e es ih =>
    intro st h0
    rw [List.foldl_cons, ih _ (fun hm => h0 (List.mem_cons_of_mem e hm))]
    unfold synStep
    rw [rawFn_append]
    have he : e ≠ 0 := fun h => h0 (h ▸ List.mem_cons_self e es)
    simp only [rawFn, List.map_cons, List.map_nil, List.sum_cons, List.sum_nil]
    rw [if_neg (by omega), add_zero, add_zero]

theorem descList_decomp : ∀ n : ℕ, ∃ l : List ℤ,
    descList n = l ++ [0] ∧ ∀ e ∈ l, 0 < e := by
  intro n
  induction n with
  | zero => exact ⟨[], rfl, by simp⟩
  | succ k ih =>
    obtain ⟨l, hl, hpos⟩ := ih
    refine ⟨((k + 1 : ℕ) : ℤ) :: l, ?_, ?_⟩
    · unfold descList
      rw [hl]
      rfl
    · intro e he
      rcases List.mem_cons.1 he with rfl | he2
      · positivity
      · exact hpos e he2

theorem descList_mem_bound : ∀ (n : ℕ) (e : ℤ), e ∈ descList n → 0 ≤ e ∧ e ≤ n := by
  intro n
  induction n with
  | zero =>
    intro e he
    rcases List.mem_singleton.1 he with rfl
    simp
  | succ k ih =>
    intro e he
    rcases List.mem_cons.1 he with rfl | he2
    · constructor <;> [positivity; simp]
    · have := ih e he2
      push_cast
      push_cast at this
      omega

theorem synQuot_rawFn_neg1 (poly : Polynomial) (d : ℤ)
    (hE : 0 ≤ (poly.max_exp).exp) :
    rawFn (synQuot poly d) (-1) = hornerRem poly d := by
  unfold synQuot hornerRem
  rw [synDivide_eq_foldl]
  unfold descExps
  rw [if_neg (not_lt.2 hE)]
  obtain ⟨l, hl, hpos⟩ := descList_decomp (poly.max_exp).exp.toNat
  rw [hl, List.foldl_append]
  have h0 : (0 : ℤ) ∉ l := fun hm => absurd (hpos 0 hm) (by omega)
  rw [List.foldl_cons, List.foldl_nil]
  have hq := foldl_synStep_neg1 poly d l (([], 0) : List Monomial × ℤ) h0
  cases hst : l.foldl (synStep poly d) (([], 0) : List Monomial × ℤ) with
  | mk acc s =>
    rw [hst] at hq
    show rawFn (synStep poly d (acc, s) 0).1 (-1) = (synStep poly d (acc, s) 0).2
    unfold synStep
    rw [rawFn_append, hq]
    simp only [rawFn, List.map_cons, List.map_nil, List.sum_cons, List.sum_nil,
      List.map_nil, List.sum_nil]
    rw [if_pos (by omega)]
    simp

theorem synQuot_exp_bound (poly : Polynomial) (d : ℤ)
    (hE : 0 ≤ (poly.max_exp).exp) :
    ∀ m ∈ synQuot poly d, -1 ≤ m.exp ∧ m.exp ≤ (poly.max_exp).exp - 1 := by
  intro m hm
  unfold synQuot at hm
  rw [synDivide_eq_foldl] at hm
  rcases foldl_synStep_mem poly d _ _ m hm with h1 | h1
  · cases h1
  · unfold descExps at h1
    rw [if_neg (not_lt.2 hE)] at h1
    have hb := descList_mem_bound (poly.max_exp).exp.toNat (m.exp + 1) h1
    have ht : ((poly.max_exp).exp.toNat : ℤ) = (poly.max_exp).exp :=
      Int.toNat_of_nonneg hE
    omega

theorem deflated_exps (poly : Polynomial) (d : ℤ)
    (hE : 0 ≤ (poly.max_exp).exp) (hrem : hornerRem poly d = 0) :
    ∀ m ∈ collapse (synQuot poly d),
      0 ≤ m.exp ∧ m.exp ≤ (poly.max_exp).exp - 1 := by
  intro m hm
  have hmap := mem_collapse_exp hm
  rcases List.mem_map.1 hmap with ⟨m2, hm2, hm2e⟩
  have hb := synQuot_exp_bound poly d hE m2 hm2
  have hval : rawFn (collapse (synQuot poly d)) m.exp = m.value :=
    rawFn_mem_canon (Canon_collapse _) hm
  have hnz : m.value ≠ 0 := (Canon_collapse (synQuot poly d)).2 m hm
  have hne : m.exp ≠ -1 := by
    intro h
    rw [h, rawFn_collapse, synQuot_rawFn_neg1 poly d hE, hrem] at hval
    exact hnz hval.symm
  omega

theorem max_exp_nonneg {p : Polynomial} (hn : ∀ m ∈ p.mono_vec, 0 ≤ m.exp) :
    0 ≤ (p.max_exp).exp := by
  unfold Polynomial.max_exp
  cases hv : p.mono_vec with
  | nil => exact le_refl 0
  | cons m t => exact hn m (hv ▸ List.mem_cons_self m t)

theorem max_exp_of_rawFn {l : List Monomial} {E : ℤ} (hc : Canon l)
    (hne : rawFn l E ≠ 0) (hb : ∀ m ∈ l, m.exp ≤ E) :
    ∃ v t, l = ⟨v, E⟩ :: t := by
  rcases l with _ | ⟨m, t⟩
  · exact absurd rfl hne
  · have hex : ∃ x ∈ m :: t, x.exp = E := by
      by_contra hno
      push_neg at hno
      exact hne (rawFn_eq_zero _ _ hno)
    obtain ⟨x, hx, hxE⟩ := hex
    have hmE : m.exp = E := by
      rcases List.mem_cons.1 hx with rfl | hx2
      · exact hxE
      · have h1 := (List.pairwise_cons.1 hc.1).1 x hx2
        have h2 := hb m (by simp)
        omega
    exact ⟨m.value, t, by rw [← hmE]⟩

theorem find_by_exp_zero_exp (p : Polynomial) : (p.find_by_exp 0).exp = 0 := by
  unfold Polynomial.find_by_exp
  cases hf : p.mono_vec.find? (fun m => m.exp = 0) with
  | none => rfl
  | some x =>
    have := List.find?_some hf
    simpa using this

theorem equation_type_linear_inv {p : Polynomial}
    (h : p.equation_type = .Linear) : (p.max_exp).exp = 1 := by
  simp only [Polynomial.equation_type] at h
  split_ifs at h with h1 h2 h3 h4 h5
  exact h2

theorem equation_type_quadratic_inv {p : Polynomial}
    (h : p.equation_type = .Quadratic) : (p.max_exp).exp = 2 := by
  simp only [Polynomial.equation_type] at h
  split_ifs at h with h1 h2 h3 h4 h5
  exact h4

theorem equation_type_biquadratic_inv {p : Polynomial}
    (h : p.equation_type = .Biquadratic) : (p.max_exp).exp = 4 := by
  simp only [Polynomial.equation_type] at h
  split_ifs at h with h1 h2 h3 h4 h5
  exact h5.1

theorem equation_type_bigexp2_inv {p : Polynomial}
    (h : p.equation_type = .BigExp2Terms) :
    (p.max_exp).exp > 1 ∧ p.len = 2 := by
  simp only [Polynomial.equation_type] at h
  split_ifs at h with h1 h2 h3 h4 h5
  exact h3

theorem equation_type_bigexp_inv {p : Polynomial}
    (h : p.equation_type = .BigExp) :
    (p.max_exp).exp ≠ 0 ∧ (p.max_exp).exp ≠ 1 ∧ (p.max_exp).exp ≠ 2 := by
  simp only [Polynomial.equation_type] at h
  split_ifs at h with h1 h2 h3 h4 h5
  exact ⟨h1, h2, h4⟩

theorem quad_shape {p : Polynomial} (hc : Canon p.mono_vec)
    (hn : ∀ m ∈ p.mono_vec, 0 ≤ m.exp) (hhead : (p.max_exp).exp = 2) :
    (∃ a, p.mono_vec = [⟨a, 2⟩]) ∨ (∃ a b, p.mono_vec = [⟨a, 2⟩, ⟨b, 1⟩]) ∨
    (∃ a c, p.mono_vec = [⟨a, 2⟩, ⟨c, 0⟩]) ∨
    ∃ a b c, p.mono_vec = [⟨a, 2⟩, ⟨b, 1⟩, ⟨c, 0⟩] := by
  obtain ⟨t, hv⟩ := head_of_max_exp (p := p) (by simp [hhead])
  rcases hme : p.max_exp with ⟨v, e⟩
  rw [hme] at hv hhead
  have he : e = 2 := hhead
  subst he
  rcases t with _ | ⟨⟨v2, e2⟩, t2⟩
  · exact Or.inl ⟨v, hv⟩
  · rw [hv] at hc hn
    have hm2lt : e2 < 2 := (List.pairwise_cons.1 hc.1).1 ⟨v2, e2⟩ (by simp)
    have hm2n : (0 : ℤ) ≤ e2 := hn ⟨v2, e2⟩ (by simp)
    rcases t2 with _ | ⟨⟨v3, e3⟩, t3⟩
    · have he2 : e2 = 1 ∨ e2 = 0 := by omega
      rcases he2 with rfl | rfl
      · exact Or.inr (Or.inl ⟨v, v2, hv⟩)
      · exact Or.inr (Or.inr (Or.inl ⟨v, v2, hv⟩))
    · have h3lt : e3 < e2 :=
        (List.pairwise_cons.1 (List.pairwise_cons.1 hc.1).2).1 ⟨v3, e3⟩ (by simp)
      have h3n : (0 : ℤ) ≤ e3 := hn ⟨v3, e3⟩ (by simp)
      have he2 : e2 = 1 := by omega
      have he3 : e3 = 0 := by omega
      subst he2
      subst he3
      rcases t3 with _ | ⟨⟨v4, e4⟩, t4⟩
      · exact Or.inr (Or.inr (Or.inr ⟨v, v2, v3, hv⟩))
      · exfalso
        have h4lt : e4 < 0 :=
          (List.pairwise_cons.1
            (List.pairwise_cons.1 (List.pairwise_cons.1 hc.1).2).2).1 ⟨v4, e4⟩ (by simp)
        have h4n : (0 : ℤ) ≤ e4 := hn ⟨v4, e4⟩ (by simp)
        omega

theorem linear_root_ok {p : Polynomial} (hc : Canon p.mono_vec)
    (hn : ∀ m ∈ p.mono_vec, 0 ≤ m.exp) (hhead : (p.max_exp).exp = 1) :
    ∃ v, linear_root p = .ok v := by
  rcases linear_shape hc hn hhead with ⟨a, hv⟩ | ⟨a, b, hv⟩
  · exact ⟨some [0], by simp [linear_root, hv]⟩
  · have ha : a ≠ 0 := by
      rw [hv] at hc
      exact hc.2 ⟨a, 1⟩ (by simp)
    exact ⟨some [Int.tdiv (-b) a], by simp [linear_root, hv, ha]⟩

theorem quadratic_main_ok (p : Polynomial)
    (hb : (((p.find_by_exp 1).value : ℤ) : ℚ) ≠ 0) :
    ∃ v, quadratic_root p = .ok v := by
  simp only [quadratic_root, toF64]
  rw [if_neg (fun hcon => hb hcon.1), if_neg hb]
  split
  · exact ⟨none, rfl⟩
  · split
    · exact ⟨none, rfl⟩
    · split_ifs <;> exact ⟨_, rfl⟩

theorem quadratic_root_ok {p : Polynomial} (hc : Canon p.mono_vec)
    (hn : ∀ m ∈ p.mono_vec, 0 ≤ m.exp) (hhead : (p.max_exp).exp = 2) :
    ∃ v, quadratic_root p = .ok v := by
  rcases quad_shape hc hn hhead with ⟨a, hv⟩ | ⟨a, b, hv⟩ | ⟨a, c, hv⟩ | ⟨a, b, c, hv⟩
  · have h1 : p.find_by_exp 1 = Monomial.default := by
      unfold Polynomial.find_by_exp
      rw [hv]
      rfl
    have h0 : p.find_by_exp 0 = Monomial.default := by
      unfold Polynomial.find_by_exp
      rw [hv]
      rfl
    refine ⟨some [0], ?_⟩
    simp only [quadratic_root, toF64, h1, h0]
    rw [if_pos (by simp [Monomial.default])]
  · have hb : b ≠ 0 := by
      rw [hv] at hc
      exact hc.2 ⟨b, 1⟩ (by simp)
    have h1 : p.find_by_exp 1 = ⟨b, 1⟩ := by
      unfold Polynomial.find_by_exp
      rw [hv]
      rfl
    apply quadratic_main_ok
    rw [h1]
    exact_mod_cast hb
  · have ha : a ≠ 0 := by
      rw [hv] at hc
      exact hc.2 ⟨a, 2⟩ (by simp)
    have hcne : c ≠ 0 := by
      rw [hv] at hc
      exact hc.2 ⟨c, 0⟩ (by simp)
    have h1 : p.find_by_exp 1 = Monomial.default := by
      unfold Polynomial.find_by_exp
      rw [hv]
      rfl
    have h0 : p.find_by_exp 0 = ⟨c, 0⟩ := by
      unfold Polynomial.find_by_exp
      rw [hv]
      rfl
    simp only [quadratic_root, toF64, h1, h0, hv]
    rw [if_neg (fun hcon => hcne (by exact_mod_cast hcon.2)),
      if_pos (by simp [Monomial.default])]
    have hlr : linear_root ⟨[(⟨a, 1⟩ : Monomial), ⟨c, 0⟩]⟩
        = .ok (some [Int.tdiv (-c) a]) := by
      simp [linear_root, ha]
    simp only [hlr, toF64]
    split
    · exact ⟨none, rfl⟩
    · split_ifs <;> exact ⟨_, rfl⟩
  · have hb : b ≠ 0 := by
      rw [hv] at hc
      exact hc.2 ⟨b, 1⟩ (by simp)
    have h1 : p.find_by_exp 1 = ⟨b, 1⟩ := by
      unfold Polynomial.find_by_exp
      rw [hv]
      rfl
    apply quadratic_main_ok
    rw [h1]
    exact_mod_cast hb

theorem quadratic_new_ok (A B : ℤ) (C : Monomial) (hA : A ≠ 0)
    (hCe : C.exp = 0) :
    ∃ v, quadratic_root (Polynomial.new [⟨A, 2⟩, ⟨B, 1⟩, C]) = .ok v := by
  rcases C with ⟨cv, ce⟩
  have hce : ce = 0 := hCe
  subst hce
  have hcanon := Canon_collapse [(⟨A, 2⟩ : Monomial), ⟨B, 1⟩, ⟨cv, 0⟩]
  have hnn : ∀ m ∈ (Polynomial.new [(⟨A, 2⟩ : Monomial), ⟨B, 1⟩, ⟨cv, 0⟩]).mono_vec,
      0 ≤ m.exp := by
    intro m hm
    rw [new_mono_vec] at hm
    have := mem_collapse_exp hm
    simp at this
    rcases this with h | h | h <;> omega
  have hraw : rawFn (collapse [(⟨A, 2⟩ : Monomial), ⟨B, 1⟩, ⟨cv, 0⟩]) 2 = A := by
    rw [rawFn_collapse]
    simp [rawFn]
  have hbound : ∀ m ∈ collapse [(⟨A, 2⟩ : Monomial), ⟨B, 1⟩, ⟨cv, 0⟩],
      m.exp ≤ 2 := by
    intro m hm
    have := mem_collapse_exp hm
    simp at this
    rcases this with h | h | h <;> omega
  obtain ⟨v, t, hvt⟩ := max_exp_of_rawFn hcanon (by rw [hraw]; exact hA) hbound
  apply quadratic_root_ok hcanon hnn
  show (Polynomial.max_exp ⟨collapse [(⟨A, 2⟩ : Monomial), ⟨B, 1⟩, ⟨cv, 0⟩]⟩).exp = 2
  unfold Polynomial.max_exp
  rw [show (Polynomial.mk (collapse [(⟨A, 2⟩ : Monomial), ⟨B, 1⟩, ⟨cv, 0⟩])).mono_vec
      = collapse [(⟨A, 2⟩ : Monomial), ⟨B, 1⟩, ⟨cv, 0⟩] from rfl, hvt]

theorem biquadratic_ok {p : Polynomial} (hc : Canon p.mono_vec)
    (hhead : (p.max_exp).exp = 4) :
    ∃ v, biquadratic_root p = .ok v := by
  obtain ⟨t, hv⟩ := head_of_max_exp (p := p) (by simp [hhead])
  have hA4 : p.find_by_exp 4 = p.max_exp := by
    unfold Polynomial.find_by_exp
    rw [hv, List.find?_cons_of_pos _ (by simp [hhead])]
    rfl
  have hAne : (p.find_by_exp 4).value ≠ 0 := by
    rw [hA4]
    exact hc.2 p.max_exp (by rw [hv]; simp)
  obtain ⟨vq, hvq⟩ := quadratic_new_ok (p.find_by_exp 4).value
    (p.find_by_exp 2).value (p.find_by_exp 0) hAne (find_by_exp_zero_exp p)
  cases vq with
  | none => exact ⟨none, by simp only [biquadratic_root, hvq]⟩
  | some qr =>
    simp only [biquadratic_root, hvq, toF64]
    split_ifs with hlen
    · split
      · split
        · exact ⟨none, rfl⟩
        · exact ⟨_, rfl⟩
      · simp at hlen
    · split
      · split_ifs with habs
        · split
          · exact ⟨none, rfl⟩
          · exact ⟨_, rfl⟩
        · split
          · exact ⟨none, rfl⟩
          · split
            · exact ⟨none, rfl⟩
            · exact ⟨_, rfl⟩
      all_goals exact ⟨none, rfl⟩

theorem big_exp2_ok {p : Polynomial} (hc : Canon p.mono_vec)
    (hlen : p.len = 2) :
    ∃ v, big_exp2_root p = .ok v := by
  rcases hv : p.mono_vec with _ | ⟨m, t⟩
  · exfalso
    unfold Polynomial.len at hlen
    rw [hv] at hlen
    simp at hlen
  · have hm : p.max_exp = m := by
      unfold Polynomial.max_exp
      rw [hv]
    have hmv : m.value ≠ 0 := hc.2 m (by rw [hv]; simp)
    have hlen2 : p.mono_vec.length = 2 := hlen
    simp only [big_exp2_root, toF64]
    rw [if_neg (not_not.2 hlen2), hm, if_neg hmv]
    split_ifs <;>
      first
        | exact ⟨none, rfl⟩
        | (split <;> first | exact ⟨none, rfl⟩ | exact ⟨_, rfl⟩)

theorem rootsF_ok : ∀ (fuel : ℕ) (p : Polynomial), Canon p.mono_vec →
    (∀ m ∈ p.mono_vec, 0 ≤ m.exp) → (p.max_exp).exp.toNat < fuel →
    ∃ v, rootsF fuel p = .ok v := by
  intro fuel
  induction fuel with
  | zero =>
    intro p _ _ hfuel
    omega
  | succ n ih =>
    intro p hc hn hfuel
    cases htype : p.equation_type with
    | Invalid => exact ⟨none, by simp only [rootsF, htype]⟩
    | Linear =>
      obtain ⟨v, hv⟩ := linear_root_ok hc hn (equation_type_linear_inv htype)
      exact ⟨v, by simp only [rootsF, htype]; exact hv⟩
    | Quadratic =>
      obtain ⟨v, hv⟩ := quadratic_root_ok hc hn (equation_type_quadratic_inv htype)
      exact ⟨v, by simp only [rootsF, htype]; exact hv⟩
    | Biquadratic =>
      obtain ⟨v, hv⟩ := biquadratic_ok hc (equation_type_biquadratic_inv htype)
      exact ⟨v, by simp only [rootsF, htype]; exact hv⟩
    | BigExp2Terms =>
      obtain ⟨v, hv⟩ := big_exp2_ok hc (equation_type_bigexp2_inv htype).2
      exact ⟨v, by simp only [rootsF, htype]; exact hv⟩
    | BigExp =>
      have hinv := equation_type_bigexp_inv htype
      have hmax0 : 0 ≤ (p.max_exp).exp := max_exp_nonneg hn
      have hE3 : 3 ≤ (p.max_exp).exp := by omega
      simp only [rootsF, htype]
      simp only [big_exp_root_core]
      split
      · exact ⟨none, rfl⟩
      · exact ⟨_, rfl⟩
      · next r rest heq =>
        have hfst : (find_root p).1 = some r := by rw [heq]
        rw [show find_root p = find_root_loop p (find_divs (rootBase p)) from rfl,
          find_root_loop_fst p hmax0] at hfst
        have hrem0 : hornerRem p r = 0 := by
          have := List.find?_some hfst
          simpa using this
        obtain ⟨hrest_eq, hrest_ne⟩ :=
          (find_root_loop_rest p hmax0 (find_divs (rootBase p)) r).1 rest heq
        subst hrest_eq
        have hcanon2 : Canon (Polynomial.mk (collapse (synQuot p r))).mono_vec :=
          Canon_collapse _
        have hexps2 : ∀ m ∈ (Polynomial.mk (collapse (synQuot p r))).mono_vec,
            0 ≤ m.exp :=
          fun m hm => (deflated_exps p r hmax0 hrem0 m hm).1
        have hmeasure :
            (Polynomial.max_exp ⟨collapse (synQuot p r)⟩).exp.toNat < n := by
          rcases hq : collapse (synQuot p r) with _ | ⟨m, t⟩
          · exact absurd hq hrest_ne
          · have hmem : m ∈ collapse (synQuot p r) := by
              rw [hq]
              simp
            have hb := deflated_exps p r hmax0 hrem0 m hmem
            show m.exp.toNat < n
            omega
        obtain ⟨v2, hv2⟩ := ih ⟨collapse (synQuot p r)⟩ hcanon2 hexps2 hmeasure
        cases v2 with
        | none => exact ⟨some (sortAsc [r]), by simp only [hv2]⟩
        | some l => exact ⟨some (sortAsc (r :: l)), by simp only [hv2]⟩

/-- Counterexample to C5 as stated: the canonical Expression x + 1 + x^-1,
built through the public constructor (`Polynomial::new` collapses its
argument), contains a term with a negative exponent; its maximum exponent is
1, so `roots()` dispatches to the linear strategy, whose length precondition
(at most two terms) fails and panics. -/
theorem roots_negative_exp_counterexample :
    roots (Polynomial.new [⟨1, 1⟩, ⟨1, 0⟩, ⟨1, -1⟩])
      = .error "x + 1 + x^-1 is not a linear equation" := by decide

/-- C5 (amended): for every canonical Expression whose terms all have
nonnegative exponents, `roots()` returns a value — a root list or an explicit
no-result `none` — and never reaches a panic (embedded as `.error`): the
dispatch classification guarantees each degree-specific strategy its required
shape, every no-real-root case flows through the fallible-conversion `none`
path, and the general high-degree recursion strictly decreases the maximum
exponent so the fuel bound is never exhausted.  Expressions with
negative-exponent terms are excluded: they make the linear strategy's
precondition reachable (see the counterexample). -/
theorem roots_no_panic (p : Polynomial) (hc : Canon p.mono_vec)
    (hn : ∀ m ∈ p.mono_vec, 0 ≤ m.exp) : ∃ v, roots p = .ok v :=
  rootsF_ok (rootsFuel p) p hc hn (by unfold rootsFuel; omega)

theorem roots_no_panic_witness :
    Canon (Polynomial.mk [⟨1, 1⟩, ⟨-9, 0⟩]).mono_vec ∧
    (∀ m ∈ (Polynomial.mk [⟨1, 1⟩, ⟨-9, 0⟩]).mono_vec, 0 ≤ m.exp) ∧
    ∃ v, roots ⟨[⟨1, 1⟩, ⟨-9, 0⟩]⟩ = .ok v :=
  ⟨by decide, by decide,
    roots_no_panic ⟨[⟨1, 1⟩, ⟨-9, 0⟩]⟩ (by decide) (by decide)⟩

end RustPolynomial
